import Mathlib

/-!
Shallow embedding of `src/spellcheck/spellcheck_hunspell.cpp`
(`Platform::Spellchecker`, Hunspell backend).

Modelling choices:
- `QChar::Script` is modelled as `Nat`; `QString` as `String`.
- External collaborators (`Spellchecker::WordScript`, `IsWordSkippable`,
  `LocaleToScriptCode`, the filesystem, the Hunspell decoder, text codecs)
  are fields of an `Env` record: the service code under verification never
  inspects them beyond calling them.
- The `std::map<QChar::Script, std::vector<QString>>` is an association
  list sorted strictly by key; `operator[]` (which default-inserts an
  empty bucket) is `mapEnsure` / `mapUpdate`, `std::map::insert` (which
  keeps the existing value on a duplicate key) is `mapInsertNew`.
- The build is modelled as a non-Windows build: the line terminator is
  the single character LF, and `ranges::to<WordsMap>` in `readFile` uses
  `std::map` insertion (first run wins on a duplicate key), matching the
  `#ifndef Q_OS_WIN` branches of the source.
- QString sorting (`ranges::actions::sort`, using `operator<`) is
  modelled by lexicographic comparison of the character lists.
- Dereferencing a null decoder or codec (the unguarded dereferences in
  `HunspellEngine::spell` and `suggest`) is modelled with `Option`:
  `none` marks the undefined behaviour of the C++ source.
- File writes that fail to open are controlled by `Env.canWrite`; a file
  that is missing or cannot be opened for reading is `World.file = none`.
-/

namespace Spellcheck

/-- QChar::Script, modelled as a natural number. -/
abbrev Script := Nat

/-- Constant `kMaxSyncableDictionaryWords` of the source. -/
def kMaxSyncableDictionaryWords : Nat := 1300

/-- Constant `kLineBreak` of the source, non-Windows branch: a single LF. -/
def kLineBreakChar : Char := '\n'

/-- The loaded Hunspell decoder behind `std::unique_ptr<Hunspell>`:
its declared dictionary encoding, its spell verdict and its suggestions,
both taken on already-encoded byte strings. External collaborator. -/
structure Hunspell where
  dicEncoding : String
  spell : String → Bool
  suggest : String → List String

/-- A `QTextCodec`: encodes to and decodes from the dictionary encoding.
External collaborator. -/
structure Codec where
  fromUnicode : String → String
  toUnicode : String → String

/-- The external collaborators of the translation unit: locale tools,
filesystem predicates, decoder construction, codec lookup, the shared
constant `kMaxSuggestions` (defined outside this file in the source), and
whether opening the custom dictionary file for writing succeeds. -/
structure Env where
  workingDir : String
  isFile : String → Bool
  makeHunspell : String → String → Hunspell
  codecForName : String → Option Codec
  localeToScriptCode : String → Script
  wordScript : String → Script
  isWordSkippable : String → Bool
  kMaxSuggestions : Nat
  canWrite : Bool

/-- Class `HunspellEngine`: language tag, script derived from the tag,
and the two nullable handles `_hunspell` and `_codec`. -/
structure HunspellEngine where
  lang : String
  script : Script
  hunspell : Option Hunspell
  codec : Option Codec

/-- Constructor `HunspellEngine::HunspellEngine(lang)`: empty working
directory, a missing `.aff` or `.dic` file, or an unknown dictionary
encoding each leave the engine invalid (`_hunspell == nullptr`). -/
def HunspellEngine.make (env : Env) (lang : String) : HunspellEngine :=
  let script := env.localeToScriptCode lang
  if env.workingDir.data.isEmpty then ⟨lang, script, none, none⟩
  else
    let dictPath := env.workingDir ++ "/" ++ lang ++ "/" ++ lang
    if !env.isFile (dictPath ++ ".aff") || !env.isFile (dictPath ++ ".dic") then
      ⟨lang, script, none, none⟩
    else
      let h := env.makeHunspell (dictPath ++ ".aff") (dictPath ++ ".dic")
      match env.codecForName h.dicEncoding with
      | none => ⟨lang, script, none, none⟩
      | some c => ⟨lang, script, some h, some c⟩

/-- `HunspellEngine::isValid`: the decoder handle is non-null. -/
def HunspellEngine.isValid (e : HunspellEngine) : Bool := e.hunspell.isSome

/-- `HunspellEngine::spell`: encode through the codec and ask the
decoder. Both dereferences are unguarded in the source; `none` marks the
undefined behaviour of calling this on an invalid engine. -/
def HunspellEngine.spell (e : HunspellEngine) (w : String) : Option Bool :=
  match e.hunspell, e.codec with
  | some h, some c => some (h.spell (c.fromUnicode w))
  | _, _ => none

/-- The loop of `HunspellEngine::suggest`: append each decoded guess
until the guesses are exhausted or the sink holds `kMaxSuggestions`. -/
def appendGuesses (maxS : Nat) (decodeW : String → String) :
    List String → List String → List String
  | [], out => out
  | g :: gs, out =>
    if out.length = maxS then out
    else appendGuesses maxS decodeW gs (out ++ [decodeW g])

/-- `HunspellEngine::suggest`: encode the word, query the decoder,
append decoded guesses to the sink. Unguarded dereferences as in
`spell`. -/
def HunspellEngine.suggest (env : Env) (e : HunspellEngine) (w : String)
    (out : List String) : Option (List String) :=
  match e.hunspell, e.codec with
  | some h, some c =>
    some (appendGuesses env.kMaxSuggestions c.toUnicode (h.suggest (c.fromUnicode w)) out)
  | _, _ => none

/-- `WordsMap = std::map<QChar::Script, std::vector<QString>>`, as an
association list strictly sorted by key. -/
abbrev WordsMap := List (Script × List String)

/-- Bucket lookup: the vector at key `s`, or the empty vector when the
key is absent (an absent key and an empty bucket are observationally the
same for every membership query of the source). -/
def mapFind : WordsMap → Script → List String
  | [], _ => []
  | (k, v) :: rest, s => if s = k then v else mapFind rest s

/-- `m[s]` followed by a mutation of the referenced vector:
`operator[]` default-inserts an empty vector when the key is absent. -/
def mapUpdate : WordsMap → Script → (List String → List String) → WordsMap
  | [], s, f => [(s, f [])]
  | (k, v) :: rest, s, f =>
    if s < k then (s, f []) :: (k, v) :: rest
    else if s = k then (k, f v) :: rest
    else (k, v) :: mapUpdate rest s f

/-- Bare `operator[]`: default-insert an empty bucket, mutate nothing. -/
def mapEnsure (m : WordsMap) (s : Script) : WordsMap := mapUpdate m s id

/-- `std::map` insertion as used by `ranges::to<WordsMap>`: a duplicate
key keeps the value already present. -/
def mapInsertNew : WordsMap → Script → List String → WordsMap
  | [], s, v => [(s, v)]
  | (k, w) :: rest, s, v =>
    if s < k then (s, v) :: (k, w) :: rest
    else if s = k then (k, w) :: rest
    else (k, w) :: mapInsertNew rest s v

/-- Assignment `m[s] = v`: default-insert then overwrite. -/
def mapSet : WordsMap → Script → List String → WordsMap
  | [], s, v => [(s, v)]
  | (k, w) :: rest, s, v =>
    if s < k then (s, v) :: (k, w) :: rest
    else if s = k then (k, v) :: rest
    else (k, w) :: mapSet rest s v

/-- `ranges::views::join(ranges::view::values(m))`: all words of all
buckets, in ascending key order. -/
def joinValues (m : WordsMap) : List String := (m.map Prod.snd).flatten

/-- The accumulated size of all buckets, as computed at the head of
`HunspellService::addWord`. -/
def totalAdded (m : WordsMap) : Nat := (m.map (fun p => p.2.length)).sum

/-- The mutable state of `HunspellService`: the engine vector and the
two script-keyed word maps. -/
structure ServiceState where
  engines : List HunspellEngine
  ignoredWords : WordsMap
  addedWords : WordsMap

/-- The persisted custom dictionary file: `none` when missing or not
openable for reading, otherwise its character content. -/
structure World where
  file : Option (List Char)

/-- The byte content `writeToFile` produces: every word of every bucket,
each followed by the line terminator. -/
def renderAdded (m : WordsMap) : List Char :=
  ((joinValues m).map (fun w => w.data ++ [kLineBreakChar])).flatten

/-- `HunspellService::writeToFile`: on a failed open, return silently
leaving the file as it was; otherwise replace the file content. -/
def writeToFile (env : Env) (st : ServiceState) (world : World) : World :=
  if env.canWrite then { file := some (renderAdded st.addedWords) } else world

/-- `QString::split` with a one-character separator, keeping empty
parts, on the character list of the string. -/
def splitChar (sep : Char) : List Char → List (List Char)
  | [] => [[]]
  | c :: rest =>
    match splitChar sep rest with
    | [] => [[c]]
    | g :: gs => if c = sep then [] :: g :: gs else (c :: g) :: gs

/-- Lexicographic comparison of character lists, modelling the QString
`operator<` used by `ranges::actions::sort`. -/
def charListLe : List Char → List Char → Bool
  | [], _ => true
  | _ :: _, [] => false
  | a :: as, b :: bs =>
    if a < b then true
    else if b < a then false
    else charListLe as bs

/-- Word comparison for sorting. -/
def wordLeP (a b : String) : Prop := charListLe a.data b.data = true

instance : DecidableRel wordLeP := fun a b =>
  inferInstanceAs (Decidable (charListLe a.data b.data = true))

/-- `ranges::actions::sort` on the split words. -/
def sortWords (l : List String) : List String := List.insertionSort wordLeP l

/-- The helper of `uniqueAdjacent`: drop every element equal to the last
kept one. -/
def uniqAux {α : Type} [DecidableEq α] (prev : α) : List α → List α
  | [] => []
  | b :: rest => if prev = b then uniqAux prev rest else b :: uniqAux b rest

/-- `ranges::actions::unique`: keep the first element of every run of
equal adjacent elements. -/
def uniqueAdjacent {α : Type} [DecidableEq α] : List α → List α
  | [] => []
  | a :: rest => a :: uniqAux a rest

/-- The helper of `groupRuns`: `first` is the first element of the
current run, `run` the later elements of the current run collected so
far in reverse. -/
def groupAux (sc : String → Script) (first : String) (run : List String) :
    List String → List (List String)
  | [] => [first :: run.reverse]
  | x :: rest =>
    if sc x == sc first then groupAux sc first (x :: run) rest
    else (first :: run.reverse) :: groupAux sc x [] rest

/-- `ranges::view::group_by` with predicate
`WordScript(a) == WordScript(b)`: contiguous runs grouped against the
first element of the current run. -/
def groupRuns (sc : String → Script) : List String → List (List String)
  | [] => []
  | w :: rest => groupAux sc w [] rest

/-- The survivor pipeline of `HunspellService::readFile`: split by the
line terminator, sort, drop adjacent duplicates, drop empty and
skippable words, keep the first `kMaxSyncableDictionaryWords`. -/
def readWords (env : Env) (data : List Char) : List String :=
  ((uniqueAdjacent (sortWords ((splitChar kLineBreakChar data).map String.mk))).filter
    (fun w => !w.data.isEmpty && !env.isWordSkippable w)).take
    kMaxSyncableDictionaryWords

/-- The map rebuild of `HunspellService::readFile`: survivors grouped
into same-script runs, each run inserted at the script of its head
(`std::map` insertion: an earlier run wins a duplicate key). -/
def readAdded (env : Env) (data : List Char) : WordsMap :=
  (groupRuns env.wordScript (readWords env data)).foldl
    (fun m run => mapInsertNew m (env.wordScript (run.headD "")) run) []

/-- `HunspellService::readFile`: missing or empty file leaves the state
untouched; otherwise rebuild `_addedWords` from the file and persist the
canonicalised form back. -/
def readFile (env : Env) (st : ServiceState) (world : World) :
    ServiceState × World :=
  match world.file with
  | none => (st, world)
  | some data =>
    if data.isEmpty then (st, world)
    else
      let st1 := { st with addedWords := readAdded env data }
      (st1, writeToFile env st1 world)

/-- Constructor `HunspellService::HunspellService`: empty engine list
and maps, then `readFile`. -/
def serviceInit (env : Env) (world : World) : ServiceState × World :=
  readFile env ⟨[], [], []⟩ world

/-- `HunspellService::activeLanguages`: the language of every held
engine. The source also filters null entries of the vector; a list of
values has none, so the filter is the identity here. -/
def activeLanguages (st : ServiceState) : List String :=
  st.engines.map HunspellEngine.lang

/-- `HunspellService::updateLanguages`: retain engines whose language is
requested, then construct an engine for every requested language not
among the retained ones (the missing list is materialised before any
construction), keeping only valid ones. -/
def updateLanguages (env : Env) (st : ServiceState) (langs : List String) :
    ServiceState :=
  let retained := st.engines.filter (fun e => langs.contains e.lang)
  let missing := langs.filter
    (fun l => !(retained.map HunspellEngine.lang).contains l)
  let fresh := (missing.map (HunspellEngine.make env)).filter HunspellEngine.isValid
  { st with engines := retained ++ fresh }

/-- The engine loop of `HunspellService::checkSpelling`: skip engines of
a different script, stop at the first engine that accepts the word.
Returns the verdict and the engines whose `spell` was consulted. -/
def checkEngines (w : String) (s : Script) :
    List HunspellEngine → Option Bool × List HunspellEngine
  | [] => (some false, [])
  | e :: es =>
    if s ≠ e.script then checkEngines w s es
    else
      match e.spell w with
      | none => (none, [e])
      | some true => (some true, [e])
      | some false =>
        let r := checkEngines w s es
        (r.1, e :: r.2)

/-- `HunspellService::checkSpelling`: true when the word is in the
ignored bucket of its script, else when it is in the added bucket, else
when some engine of the same script accepts it. Both bucket lookups use
`operator[]` and may default-insert an empty bucket. -/
def checkSpelling (env : Env) (st : ServiceState) (w : String) :
    Option Bool × ServiceState :=
  let s := env.wordScript w
  let st1 := { st with ignoredWords := mapEnsure st.ignoredWords s }
  if w ∈ mapFind st1.ignoredWords s then (some true, st1)
  else
    let st2 := { st1 with addedWords := mapEnsure st1.addedWords s }
    if w ∈ mapFind st2.addedWords s then (some true, st2)
    else ((checkEngines w s st2.engines).1, st2)

/-- The engine loop of `HunspellService::fillSuggestionList`: skip
engines of a different script, return once the sink holds
`kMaxSuggestions`, otherwise let the engine append. Returns the filled
sink and the engines whose `suggest` was consulted. -/
def fillLoop (env : Env) (w : String) (s : Script) :
    List HunspellEngine → List String → Option (List String) × List HunspellEngine
  | [], out => (some out, [])
  | e :: es, out =>
    if s ≠ e.script then fillLoop env w s es out
    else if out.length = env.kMaxSuggestions then (some out, [])
    else
      match e.suggest env w out with
      | none => (none, [e])
      | some out1 =>
        let r := fillLoop env w s es out1
        (r.1, e :: r.2)

/-- `HunspellService::fillSuggestionList`. -/
def fillSuggestionList (env : Env) (st : ServiceState) (w : String)
    (out : List String) : Option (List String) × List HunspellEngine :=
  fillLoop env w (env.wordScript w) st.engines out

/-- `HunspellService::ignoreWord`: append to the ignored bucket of the
script of the word. -/
def ignoreWord (env : Env) (st : ServiceState) (w : String) : ServiceState :=
  { st with ignoredWords :=
      mapUpdate st.ignoredWords (env.wordScript w) (fun ws => ws ++ [w]) }

/-- `HunspellService::isWordInDictionary`: membership in the added
bucket of the script of the word (`addedWords(word)` uses `operator[]`
and may default-insert an empty bucket). -/
def isWordInDictionary (env : Env) (st : ServiceState) (w : String) :
    Bool × ServiceState :=
  let s := env.wordScript w
  let m := mapEnsure st.addedWords s
  (decide (w ∈ mapFind m s), { st with addedWords := m })

/-- `HunspellService::addWord`: when the accumulated bucket sizes exceed
`kMaxSyncableDictionaryWords`, return silently; otherwise append the
word to the bucket of its script and persist. -/
def addWord (env : Env) (st : ServiceState) (world : World) (w : String) :
    ServiceState × World :=
  if totalAdded st.addedWords > kMaxSyncableDictionaryWords then (st, world)
  else
    let newMap := mapUpdate st.addedWords (env.wordScript w) (fun ws => ws ++ [w])
    let st1 := { st with addedWords := newMap }
    (st1, writeToFile env st1 world)

/-- `HunspellService::removeWord`: erase every occurrence of the word
from the bucket of its script and persist. -/
def removeWord (env : Env) (st : ServiceState) (world : World) (w : String) :
    ServiceState × World :=
  let newMap := mapUpdate st.addedWords (env.wordScript w)
    (fun ws => ws.filter (fun x => x != w))
  let st1 := { st with addedWords := newMap }
  (st1, writeToFile env st1 world)

/-- One public operation of the service. -/
inductive Op where
  | update (langs : List String)
  | add (w : String)
  | remove (w : String)
  | ignore (w : String)
  | check (w : String)
  | query (w : String)
  | fill (w : String) (out : List String)

/-- The effect of one operation on the service state and the persisted
file (`fillSuggestionList` only writes into the caller-owned sink). -/
def applyOp (env : Env) : ServiceState × World → Op → ServiceState × World
  | (st, world), .update langs => (updateLanguages env st langs, world)
  | (st, world), .add w => addWord env st world w
  | (st, world), .remove w => removeWord env st world w
  | (st, world), .ignore w => (ignoreWord env st w, world)
  | (st, world), .check w => ((checkSpelling env st w).2, world)
  | (st, world), .query w => ((isWordInDictionary env st w).2, world)
  | (st, world), .fill _ _ => (st, world)

/-- A sequence of public operations. -/
def runOps (env : Env) (init : ServiceState × World) (ops : List Op) :
    ServiceState × World :=
  ops.foldl (applyOp env) init

/-- Every state the service can reach: construction over some initial
file, then any sequence of public operations. -/
def reachable (env : Env) (world0 : World) (ops : List Op) :
    ServiceState × World :=
  runOps env (serviceInit env world0) ops

/-- The word list a reader of the persisted file sees: split by the line
terminator, keeping empty parts. -/
def parsedWords (world : World) : List String :=
  match world.file with
  | none => []
  | some data => (splitChar kLineBreakChar data).map String.mk

/-- Modelled from the spec (section 4.3, persist canonicalisation):
sort lexicographically, drop adjacent duplicates, drop empties and
skippable words, keep the first `MAX_ADDED` survivors. -/
def canonicalKept (env : Env) (ws : List String) : List String :=
  ((uniqueAdjacent (sortWords ws)).filter
    (fun w => !w.data.isEmpty && !env.isWordSkippable w)).take
    kMaxSyncableDictionaryWords

/-- Modelled from the spec: the survivors grouped into contiguous runs
of equal script. -/
def canonicalRuns (env : Env) (ws : List String) : List (List String) :=
  groupRuns env.wordScript (canonicalKept env ws)

/-- Modelled from the spec: for each run, set
`added[scriptOf(run[0])] = run`. -/
def specCanonical (env : Env) (ws : List String) : WordsMap :=
  (canonicalRuns env ws).foldl
    (fun m run => mapSet m (env.wordScript (run.headD "")) run) []

/-- The write-clear-read cycle claim C3 speaks about. -/
def roundTrip (env : Env) (st : ServiceState) (world : World) :
    ServiceState × World :=
  readFile env { st with addedWords := [] } (writeToFile env st world)

/-! ## Lemmas about the script-keyed maps -/

theorem mapFind_eq_nil (m : WordsMap) (s : Script) (h : ∀ p ∈ m, s ≠ p.1) :
    mapFind m s = [] := by
  induction m with
  | nil => rfl
  | cons p rest ih =>
    obtain ⟨k, v⟩ := p
    have hk : s ≠ k := h (k, v) (by simp)
    simp only [mapFind, if_neg hk]
    exact ih (fun q hq => h q (by simp [hq]))

theorem mapUpdate_keys_mem (m : WordsMap) (s : Script)
    (f : List String → List String) :
    ∀ q ∈ mapUpdate m s f, q.1 = s ∨ q.1 ∈ m.map Prod.fst := by
  induction m with
  | nil => intro q hq; simp [mapUpdate] at hq; simp [hq]
  | cons p rest ih =>
    obtain ⟨k, v⟩ := p
    intro q hq
    by_cases hlt : s < k
    · simp only [mapUpdate, if_pos hlt, List.mem_cons] at hq
      rcases hq with hq | hq | hq
      · simp [hq]
      · simp [hq]
      · exact Or.inr (by simpa using Or.inr (List.mem_map_of_mem Prod.fst hq))
    · by_cases heq : s = k
      · simp only [mapUpdate, if_neg hlt, if_pos heq, List.mem_cons] at hq
        rcases hq with hq | hq
        · simp [hq, heq]
        · exact Or.inr (by simpa using Or.inr (List.mem_map_of_mem Prod.fst hq))
      · simp only [mapUpdate, if_neg hlt, if_neg heq, List.mem_cons] at hq
        rcases hq with hq | hq
        · simp [hq]
        · rcases ih q hq with h1 | h1
          · exact Or.inl h1
          · exact Or.inr (by simpa using Or.inr h1)

/-- Keys of the association list are strictly ascending: the `std::map`
representation invariant. -/
def KeysSorted (m : WordsMap) : Prop := m.Pairwise (fun a b => a.1 < b.1)

/-- Every word sits in the bucket of its own script (invariant I4 of the
spec). -/
def BucketsMatch (sc : String → Script) (m : WordsMap) : Prop :=
  ∀ p ∈ m, ∀ w ∈ p.2, sc w = p.1

theorem mapFind_mapUpdate_self (m : WordsMap) (s : Script)
    (f : List String → List String) (h : KeysSorted m) :
    mapFind (mapUpdate m s f) s = f (mapFind m s) := by
  induction m with
  | nil => simp [mapUpdate, mapFind]
  | cons p rest ih =>
    obtain ⟨k, v⟩ := p
    rw [KeysSorted, List.pairwise_cons] at h
    obtain ⟨hall, hrest⟩ := h
    by_cases hlt : s < k
    · have hane : s ≠ k := Nat.ne_of_lt hlt
      have hnone : mapFind rest s = [] :=
        mapFind_eq_nil rest s
          (fun q hq => Nat.ne_of_lt (Nat.lt_trans hlt (hall q hq)))
      simp [mapUpdate, if_pos hlt, mapFind, hane, hnone]
    · by_cases heq : s = k
      · simp [mapUpdate, if_neg hlt, if_pos heq, mapFind, heq]
      · simp only [mapUpdate, if_neg hlt, if_neg heq, mapFind, if_neg heq]
        exact ih hrest

theorem mapFind_mapUpdate_ne (m : WordsMap) (s s' : Script)
    (f : List String → List String) (h : s' ≠ s) :
    mapFind (mapUpdate m s f) s' = mapFind m s' := by
  induction m with
  | nil => simp [mapUpdate, mapFind, h]
  | cons p rest ih =>
    obtain ⟨k, v⟩ := p
    by_cases hlt : s < k
    · simp [mapUpdate, if_pos hlt, mapFind, h]
    · by_cases heq : s = k
      · subst heq; simp [mapUpdate, if_neg hlt, mapFind, h]
      · simp only [mapUpdate, if_neg hlt, if_neg heq, mapFind]
        by_cases hk : s' = k
        · simp [hk]
        · simp [hk, ih]

theorem mapFind_mapEnsure (m : WordsMap) (s s' : Script) (h : KeysSorted m) :
    mapFind (mapEnsure m s) s' = mapFind m s' := by
  by_cases hs : s' = s
  · subst hs; simpa using mapFind_mapUpdate_self m s' id h
  · exact mapFind_mapUpdate_ne m s s' id hs

theorem mapEnsure_mapEnsure (m : WordsMap) (s : Script) :
    mapEnsure (mapEnsure m s) s = mapEnsure m s := by
  unfold mapEnsure
  induction m with
  | nil => simp [mapUpdate]
  | cons p rest ih =>
    obtain ⟨k, v⟩ := p
    by_cases hlt : s < k
    · simp [mapUpdate, if_pos hlt, lt_irrefl]
    · by_cases heq : s = k
      · simp [mapUpdate, if_neg hlt, if_pos heq, lt_irrefl, heq]
      · simp [mapUpdate, if_neg hlt, if_neg heq, ih]

theorem totalAdded_mapUpdate_append (m : WordsMap) (s : Script) (w : String) :
    totalAdded (mapUpdate m s (fun ws => ws ++ [w])) = totalAdded m + 1 := by
  induction m with
  | nil => simp [mapUpdate, totalAdded]
  | cons p rest ih =>
    obtain ⟨k, v⟩ := p
    by_cases hlt : s < k
    · simp only [mapUpdate, if_pos hlt, totalAdded, List.map_cons, List.sum_cons,
        List.nil_append, List.length_singleton]
      omega
    · by_cases heq : s = k
      · simp only [mapUpdate, if_neg hlt, if_pos heq, totalAdded, List.map_cons,
          List.sum_cons, List.length_append, List.length_singleton]
        omega
      · simp only [mapUpdate, if_neg hlt, if_neg heq, totalAdded, List.map_cons,
          List.sum_cons] at ih ⊢
        omega

theorem totalAdded_mapUpdate_shrink (m : WordsMap) (s : Script)
    (f : List String → List String) (hf : ∀ v, (f v).length ≤ v.length) :
    totalAdded (mapUpdate m s f) ≤ totalAdded m := by
  have hnil : (f []).length = 0 := Nat.le_zero.mp (by simpa using hf [])
  induction m with
  | nil =>
    simp only [mapUpdate, totalAdded, List.map_cons, List.map_nil, List.sum_cons,
      List.sum_nil, hnil]
    omega
  | cons p rest ih =>
    obtain ⟨k, v⟩ := p
    by_cases hlt : s < k
    · simp only [mapUpdate, if_pos hlt, totalAdded, List.map_cons, List.sum_cons, hnil]
      omega
    · by_cases heq : s = k
      · have := hf v
        simp only [mapUpdate, if_neg hlt, if_pos heq, totalAdded, List.map_cons,
          List.sum_cons]
        omega
      · simp only [mapUpdate, if_neg hlt, if_neg heq, totalAdded, List.map_cons,
          List.sum_cons] at ih ⊢
        omega

theorem totalAdded_mapEnsure (m : WordsMap) (s : Script) :
    totalAdded (mapEnsure m s) = totalAdded m := by
  unfold mapEnsure
  induction m with
  | nil => simp [mapUpdate, totalAdded]
  | cons p rest ih =>
    obtain ⟨k, v⟩ := p
    by_cases hlt : s < k
    · simp [mapUpdate, if_pos hlt, totalAdded]
    · by_cases heq : s = k
      · simp [mapUpdate, if_neg hlt, if_pos heq, totalAdded]
      · simp only [mapUpdate, if_neg hlt, if_neg heq, totalAdded, List.map_cons,
          List.sum_cons] at ih ⊢
        omega

theorem keysSorted_mapUpdate (m : WordsMap) (s : Script)
    (f : List String → List String) (h : KeysSorted m) :
    KeysSorted (mapUpdate m s f) := by
  induction m with
  | nil => simp [mapUpdate, KeysSorted]
  | cons p rest ih =>
    obtain ⟨k, v⟩ := p
    rw [KeysSorted, List.pairwise_cons] at h
    obtain ⟨hall, hrest⟩ := h
    by_cases hlt : s < k
    · rw [KeysSorted]
      simp only [mapUpdate, if_pos hlt]
      rw [List.pairwise_cons]
      refine ⟨?_, by rw [List.pairwise_cons]; exact ⟨hall, hrest⟩⟩
      intro q hq
      rcases List.mem_cons.mp hq with hq | hq
      · simp [hq, hlt]
      · exact lt_trans hlt (hall q hq)
    · by_cases heq : s = k
      · rw [KeysSorted]
        simp only [mapUpdate, if_neg hlt, if_pos heq]
        rw [List.pairwise_cons]
        exact ⟨hall, hrest⟩
      · have hks : k < s :=
          Nat.lt_of_le_of_ne (Nat.not_lt.mp hlt) (fun hk => heq hk.symm)
        rw [KeysSorted]
        simp only [mapUpdate, if_neg hlt, if_neg heq]
        rw [List.pairwise_cons]
        refine ⟨?_, ih hrest⟩
        intro q hq
        rcases mapUpdate_keys_mem rest s f q hq with h1 | h1
        · show k < q.1
          exact h1 ▸ hks
        · obtain ⟨p2, hp2, hp2eq⟩ := List.mem_map.mp h1
          have h3 : k < p2.1 := hall p2 hp2
          show k < q.1
          exact hp2eq ▸ h3

theorem bucketsMatch_mapUpdate (sc : String → Script) (m : WordsMap) (s : Script)
    (f : List String → List String) (h : BucketsMatch sc m)
    (hf : ∀ v, (∀ x ∈ v, sc x = s) → ∀ x ∈ f v, sc x = s) :
    BucketsMatch sc (mapUpdate m s f) := by
  induction m with
  | nil =>
    intro p hp w hw
    simp [mapUpdate] at hp
    subst hp
    exact hf [] (by simp) w hw
  | cons p0 rest ih =>
    obtain ⟨k, v⟩ := p0
    have hhead : ∀ w ∈ v, sc w = k := fun w hw => h (k, v) (by simp) w hw
    have hrest : BucketsMatch sc rest := fun q hq w hw => h q (by simp [hq]) w hw
    by_cases hlt : s < k
    · intro p hp w hw
      simp only [mapUpdate, if_pos hlt, List.mem_cons] at hp
      rcases hp with hp | hp | hp
      · subst hp; exact hf [] (by simp) w hw
      · subst hp; exact hhead w hw
      · exact hrest p hp w hw
    · by_cases heq : s = k
      · intro p hp w hw
        simp only [mapUpdate, if_neg hlt, if_pos heq, List.mem_cons] at hp
        rcases hp with hp | hp
        · subst hp
          exact heq ▸ hf v (heq ▸ hhead) w hw
        · exact hrest p hp w hw
      · intro p hp w hw
        simp only [mapUpdate, if_neg hlt, if_neg heq, List.mem_cons] at hp
        rcases hp with hp | hp
        · subst hp; exact hhead w hw
        · exact ih hrest p hp w hw

theorem mapInsertNew_keys_mem (m : WordsMap) (s : Script) (v : List String) :
    ∀ q ∈ mapInsertNew m s v, q.1 = s ∨ q.1 ∈ m.map Prod.fst := by
  induction m with
  | nil => intro q hq; simp [mapInsertNew] at hq; simp [hq]
  | cons p rest ih =>
    obtain ⟨k, w⟩ := p
    intro q hq
    by_cases hlt : s < k
    · simp only [mapInsertNew, if_pos hlt, List.mem_cons] at hq
      rcases hq with hq | hq | hq
      · simp [hq]
      · simp [hq]
      · exact Or.inr (by simpa using Or.inr (List.mem_map_of_mem Prod.fst hq))
    · by_cases heq : s = k
      · simp only [mapInsertNew, if_neg hlt, if_pos heq, List.mem_cons] at hq
        rcases hq with hq | hq
        · simp [hq]
        · exact Or.inr (by simpa using Or.inr (List.mem_map_of_mem Prod.fst hq))
      · simp only [mapInsertNew, if_neg hlt, if_neg heq, List.mem_cons] at hq
        rcases hq with hq | hq
        · simp [hq]
        · rcases ih q hq with h1 | h1
          · exact Or.inl h1
          · exact Or.inr (by simpa using Or.inr h1)

theorem mapSet_keys_mem (m : WordsMap) (s : Script) (v : List String) :
    ∀ q ∈ mapSet m s v, q.1 = s ∨ q.1 ∈ m.map Prod.fst := by
  induction m with
  | nil => intro q hq; simp [mapSet] at hq; simp [hq]
  | cons p rest ih =>
    obtain ⟨k, w⟩ := p
    intro q hq
    by_cases hlt : s < k
    · simp only [mapSet, if_pos hlt, List.mem_cons] at hq
      rcases hq with hq | hq | hq
      · simp [hq]
      · simp [hq]
      · exact Or.inr (by simpa using Or.inr (List.mem_map_of_mem Prod.fst hq))
    · by_cases heq : s = k
      · simp only [mapSet, if_neg hlt, if_pos heq, List.mem_cons] at hq
        rcases hq with hq | hq
        · simp [hq, heq]
        · exact Or.inr (by simpa using Or.inr (List.mem_map_of_mem Prod.fst hq))
      · simp only [mapSet, if_neg hlt, if_neg heq, List.mem_cons] at hq
        rcases hq with hq | hq
        · simp [hq]
        · rcases ih q hq with h1 | h1
          · exact Or.inl h1
          · exact Or.inr (by simpa using Or.inr h1)

theorem keysSorted_mapInsertNew (m : WordsMap) (s : Script) (v : List String)
    (h : KeysSorted m) : KeysSorted (mapInsertNew m s v) := by
  induction m with
  | nil => simp [mapInsertNew, KeysSorted]
  | cons p rest ih =>
    obtain ⟨k, w⟩ := p
    rw [KeysSorted, List.pairwise_cons] at h
    obtain ⟨hall, hrest⟩ := h
    by_cases hlt : s < k
    · rw [KeysSorted]
      simp only [mapInsertNew, if_pos hlt]
      rw [List.pairwise_cons]
      refine ⟨?_, by rw [List.pairwise_cons]; exact ⟨hall, hrest⟩⟩
      intro q hq
      rcases List.mem_cons.mp hq with hq | hq
      · simp [hq, hlt]
      · exact lt_trans hlt (hall q hq)
    · by_cases heq : s = k
      · rw [KeysSorted]
        simp only [mapInsertNew, if_neg hlt, if_pos heq]
        rw [List.pairwise_cons]
        exact ⟨hall, hrest⟩
      · have hks : k < s :=
          Nat.lt_of_le_of_ne (Nat.not_lt.mp hlt) (fun hk => heq hk.symm)
        rw [KeysSorted]
        simp only [mapInsertNew, if_neg hlt, if_neg heq]
        rw [List.pairwise_cons]
        refine ⟨?_, ih hrest⟩
        intro q hq
        rcases mapInsertNew_keys_mem rest s v q hq with h1 | h1
        · show k < q.1
          exact h1 ▸ hks
        · obtain ⟨p2, hp2, hp2eq⟩ := List.mem_map.mp h1
          have h3 : k < p2.1 := hall p2 hp2
          show k < q.1
          exact hp2eq ▸ h3

theorem bucketsMatch_mapInsertNew (sc : String → Script) (m : WordsMap)
    (s : Script) (v : List String) (h : BucketsMatch sc m)
    (hv : ∀ x ∈ v, sc x = s) : BucketsMatch sc (mapInsertNew m s v) := by
  induction m with
  | nil =>
    intro p hp x hx
    simp [mapInsertNew] at hp
    subst hp
    exact hv x hx
  | cons p0 rest ih =>
    obtain ⟨k, w⟩ := p0
    have hhead : ∀ x ∈ w, sc x = k := fun x hx => h (k, w) (by simp) x hx
    have hrest : BucketsMatch sc rest := fun q hq x hx => h q (by simp [hq]) x hx
    by_cases hlt : s < k
    · intro p hp x hx
      simp only [mapInsertNew, if_pos hlt, List.mem_cons] at hp
      rcases hp with hp | hp | hp
      · subst hp; exact hv x hx
      · subst hp; exact hhead x hx
      · exact hrest p hp x hx
    · by_cases heq : s = k
      · intro p hp x hx
        simp only [mapInsertNew, if_neg hlt, if_pos heq, List.mem_cons] at hp
        rcases hp with hp | hp
        · subst hp; exact hhead x hx
        · exact hrest p hp x hx
      · intro p hp x hx
        simp only [mapInsertNew, if_neg hlt, if_neg heq, List.mem_cons] at hp
        rcases hp with hp | hp
        · subst hp; exact hhead x hx
        · exact ih hrest p hp x hx

theorem totalAdded_mapInsertNew_le (m : WordsMap) (s : Script) (v : List String) :
    totalAdded (mapInsertNew m s v) ≤ totalAdded m + v.length := by
  induction m with
  | nil => simp [mapInsertNew, totalAdded]
  | cons p rest ih =>
    obtain ⟨k, w⟩ := p
    by_cases hlt : s < k
    · simp only [mapInsertNew, if_pos hlt, totalAdded, List.map_cons, List.sum_cons]
      omega
    · by_cases heq : s = k
      · simp only [mapInsertNew, if_neg hlt, if_pos heq, totalAdded, List.map_cons,
          List.sum_cons]
        omega
      · simp only [mapInsertNew, if_neg hlt, if_neg heq, totalAdded, List.map_cons,
          List.sum_cons] at ih ⊢
        omega

theorem mapInsertNew_eq_mapSet (m : WordsMap) (s : Script) (v : List String)
    (h : s ∉ m.map Prod.fst) : mapInsertNew m s v = mapSet m s v := by
  induction m with
  | nil => rfl
  | cons p rest ih =>
    obtain ⟨k, w⟩ := p
    have hk : s ≠ k := by
      intro hk
      exact h (by simp [hk])
    by_cases hlt : s < k
    · simp [mapInsertNew, mapSet, if_pos hlt]
    · simp only [mapInsertNew, mapSet, if_neg hlt, if_neg hk]
      rw [ih (fun hs => h (by simpa using Or.inr hs))]

/-! ## Lemmas about engines and the two engine loops -/

theorem make_lang (env : Env) (l : String) :
    (HunspellEngine.make env l).lang = l := by
  unfold HunspellEngine.make
  by_cases h1 : env.workingDir.data.isEmpty
  · simp [h1]
  · simp only [h1, Bool.false_eq_true, if_false]
    split
    · rfl
    · split <;> rfl

theorem make_valid_codec (env : Env) (l : String)
    (h : (HunspellEngine.make env l).hunspell.isSome = true) :
    (HunspellEngine.make env l).codec.isSome = true := by
  unfold HunspellEngine.make at h ⊢
  by_cases h1 : env.workingDir.data.isEmpty
  · simp [h1] at h
  · simp only [h1, Bool.false_eq_true, if_false] at h ⊢
    split at h
    · simp at h
    · rename_i hfiles
      split at h
      · simp at h
      · simp_all

theorem spell_isSome (e : HunspellEngine) (w : String)
    (h1 : e.hunspell.isSome = true) (h2 : e.codec.isSome = true) :
    (e.spell w).isSome = true := by
  unfold HunspellEngine.spell
  obtain ⟨h, hh⟩ := Option.isSome_iff_exists.mp h1
  obtain ⟨c, hc⟩ := Option.isSome_iff_exists.mp h2
  simp [hh, hc]

theorem suggest_isSome (env : Env) (e : HunspellEngine) (w : String)
    (out : List String) (h1 : e.hunspell.isSome = true)
    (h2 : e.codec.isSome = true) : (e.suggest env w out).isSome = true := by
  unfold HunspellEngine.suggest
  obtain ⟨h, hh⟩ := Option.isSome_iff_exists.mp h1
  obtain ⟨c, hc⟩ := Option.isSome_iff_exists.mp h2
  simp [hh, hc]

theorem checkEngines_consulted (w : String) (s : Script)
    (es : List HunspellEngine) :
    ∀ e ∈ (checkEngines w s es).2, e.script = s ∧ e ∈ es := by
  induction es with
  | nil => intro e he; simp [checkEngines] at he
  | cons e0 rest ih =>
    intro e he
    by_cases hs : s = e0.script
    · simp only [checkEngines, if_neg (by simp [hs] : ¬s ≠ e0.script)] at he
      rcases hspell : e0.spell w with _ | b
      · rw [hspell] at he
        simp at he
        subst he
        exact ⟨hs.symm, by simp⟩
      · rcases b with _ | _
        · rw [hspell] at he
          simp at he
          rcases he with he | he
          · subst he; exact ⟨hs.symm, by simp⟩
          · obtain ⟨ha, hb⟩ := ih e he
            exact ⟨ha, by simp [hb]⟩
        · rw [hspell] at he
          simp at he
          subst he
          exact ⟨hs.symm, by simp⟩
    · simp only [checkEngines, if_pos (by simp [hs] : s ≠ e0.script)] at he
      obtain ⟨ha, hb⟩ := ih e he
      exact ⟨ha, by simp [hb]⟩

theorem checkEngines_isSome (w : String) (s : Script)
    (es : List HunspellEngine)
    (hv : ∀ e ∈ es, e.hunspell.isSome = true ∧ e.codec.isSome = true) :
    ((checkEngines w s es).1).isSome = true := by
  induction es with
  | nil => simp [checkEngines]
  | cons e0 rest ih =>
    have hv0 := hv e0 (by simp)
    have hvr : ∀ e ∈ rest, e.hunspell.isSome = true ∧ e.codec.isSome = true :=
      fun e he => hv e (by simp [he])
    by_cases hs : s = e0.script
    · simp only [checkEngines, if_neg (by simp [hs] : ¬s ≠ e0.script)]
      rcases hspell : e0.spell w with _ | b
      · have := spell_isSome e0 w hv0.1 hv0.2
        rw [hspell] at this
        simp at this
      · rcases b with _ | _
        · simp [hspell, ih hvr]
        · simp [hspell]
    · simp only [checkEngines, if_pos (by simp [hs] : s ≠ e0.script)]
      exact ih hvr

theorem checkEngines_eq_true_iff (w : String) (s : Script)
    (es : List HunspellEngine)
    (hv : ∀ e ∈ es, e.hunspell.isSome = true ∧ e.codec.isSome = true) :
    ((checkEngines w s es).1 = some true
      ↔ ∃ e ∈ es, e.script = s ∧ e.spell w = some true) := by
  induction es with
  | nil => simp [checkEngines]
  | cons e0 rest ih =>
    have hv0 := hv e0 (by simp)
    have hvr : ∀ e ∈ rest, e.hunspell.isSome = true ∧ e.codec.isSome = true :=
      fun e he => hv e (by simp [he])
    by_cases hs : s = e0.script
    · rcases hspell : e0.spell w with _ | b
      · have h2 := spell_isSome e0 w hv0.1 hv0.2
        rw [hspell] at h2
        simp at h2
      · rcases b with _ | _
        · have hred : checkEngines w s (e0 :: rest)
              = ((checkEngines w s rest).1, e0 :: (checkEngines w s rest).2) := by
            simp only [checkEngines, if_neg (by simp [hs] : ¬s ≠ e0.script)]
            rw [hspell]
          rw [hred, ih hvr]
          constructor
          · rintro ⟨e, he, ha, hb⟩
            exact ⟨e, by simp [he], ha, hb⟩
          · rintro ⟨e, he, ha, hb⟩
            rcases List.mem_cons.mp he with he | he
            · subst he
              rw [hspell] at hb
              simp at hb
            · exact ⟨e, he, ha, hb⟩
        · have hred : checkEngines w s (e0 :: rest) = (some true, [e0]) := by
            simp only [checkEngines, if_neg (by simp [hs] : ¬s ≠ e0.script)]
            rw [hspell]
          rw [hred]
          exact iff_of_true rfl ⟨e0, by simp, hs.symm, hspell⟩
    · simp only [checkEngines, if_pos (by simp [hs] : s ≠ e0.script)]
      rw [ih hvr]
      constructor
      · rintro ⟨e, he, ha, hb⟩
        exact ⟨e, by simp [he], ha, hb⟩
      · rintro ⟨e, he, ha, hb⟩
        rcases List.mem_cons.mp he with he | he
        · subst he
          exact absurd ha.symm hs
        · exact ⟨e, he, ha, hb⟩

theorem appendGuesses_eq_append (maxS : Nat) (d : String → String)
    (gs : List String) :
    ∀ out, ∃ extra, appendGuesses maxS d gs out = out ++ extra := by
  induction gs with
  | nil => intro out; exact ⟨[], by simp [appendGuesses]⟩
  | cons g rest ih =>
    intro out
    by_cases h : out.length = maxS
    · exact ⟨[], by simp [appendGuesses, h]⟩
    · obtain ⟨extra, hx⟩ := ih (out ++ [d g])
      refine ⟨d g :: extra, ?_⟩
      simp only [appendGuesses, if_neg h, hx]
      simp

theorem appendGuesses_length_le (maxS : Nat) (d : String → String)
    (gs : List String) :
    ∀ out, out.length ≤ maxS → (appendGuesses maxS d gs out).length ≤ maxS := by
  induction gs with
  | nil => intro out h; simpa [appendGuesses] using h
  | cons g rest ih =>
    intro out h
    by_cases hl : out.length = maxS
    · simp [appendGuesses, hl]
    · have : (out ++ [d g]).length ≤ maxS := by
        simp only [List.length_append, List.length_singleton]
        omega
      simpa [appendGuesses, hl] using ih (out ++ [d g]) this

theorem fillLoop_spec (env : Env) (w : String) (s : Script)
    (es : List HunspellEngine)
    (hv : ∀ e ∈ es, e.hunspell.isSome = true ∧ e.codec.isSome = true) :
    ∀ out, out.length ≤ env.kMaxSuggestions →
      ∃ r, (fillLoop env w s es out).1 = some r
        ∧ r.length ≤ env.kMaxSuggestions ∧ ∃ extra, r = out ++ extra := by
  induction es with
  | nil =>
    intro out h
    exact ⟨out, rfl, h, [], by simp⟩
  | cons e0 rest ih =>
    have hv0 := hv e0 (by simp)
    have hvr : ∀ e ∈ rest, e.hunspell.isSome = true ∧ e.codec.isSome = true :=
      fun e he => hv e (by simp [he])
    intro out h
    by_cases hs : s ≠ e0.script
    · simpa only [fillLoop, if_pos hs] using ih hvr out h
    · by_cases hfull : out.length = env.kMaxSuggestions
      · refine ⟨out, ?_, h, [], by simp⟩
        simp [fillLoop, if_neg hs, hfull]
      · obtain ⟨hh, hheq⟩ := Option.isSome_iff_exists.mp hv0.1
        obtain ⟨cc, hceq⟩ := Option.isSome_iff_exists.mp hv0.2
        have hsug : e0.suggest env w out
            = some (appendGuesses env.kMaxSuggestions cc.toUnicode
                (hh.suggest (cc.fromUnicode w)) out) := by
          unfold HunspellEngine.suggest
          rw [hheq, hceq]
        set out1 := appendGuesses env.kMaxSuggestions cc.toUnicode
          (hh.suggest (cc.fromUnicode w)) out with hout1
        have hlen1 : out1.length ≤ env.kMaxSuggestions :=
          appendGuesses_length_le _ _ _ out h
        obtain ⟨extra1, hx1⟩ := appendGuesses_eq_append env.kMaxSuggestions
          cc.toUnicode (hh.suggest (cc.fromUnicode w)) out
        obtain ⟨r, hr, hrlen, extra2, hx2⟩ := ih hvr out1 hlen1
        refine ⟨r, ?_, hrlen, extra1 ++ extra2, ?_⟩
        · have hred : fillLoop env w s (e0 :: rest) out
              = ((fillLoop env w s rest out1).1, e0 :: (fillLoop env w s rest out1).2) := by
            simp only [fillLoop, if_neg hs, if_neg hfull]
            rw [hsug]
          rw [hred]
          exact hr
        · rw [hx2, ← hout1] at *
          rw [hx2]
          rw [hout1, hx1]
          simp

theorem fillLoop_at_max (env : Env) (w : String) (s : Script)
    (es : List HunspellEngine) (out : List String)
    (h : out.length = env.kMaxSuggestions) :
    (fillLoop env w s es out).1 = some out := by
  induction es with
  | nil => rfl
  | cons e0 rest ih =>
    by_cases hs : s ≠ e0.script
    · simpa only [fillLoop, if_pos hs] using ih
    · simp [fillLoop, if_neg hs, h]

theorem fillLoop_consulted (env : Env) (w : String) (s : Script)
    (es : List HunspellEngine) :
    ∀ out, ∀ e ∈ (fillLoop env w s es out).2, e.script = s ∧ e ∈ es := by
  induction es with
  | nil => intro out e he; simp [fillLoop] at he
  | cons e0 rest ih =>
    intro out e he
    by_cases hs : s ≠ e0.script
    · simp only [fillLoop, if_pos hs] at he
      obtain ⟨ha, hb⟩ := ih out e he
      exact ⟨ha, by simp [hb]⟩
    · push_neg at hs
      by_cases hfull : out.length = env.kMaxSuggestions
      · simp only [fillLoop, if_neg (by simp [hs] : ¬s ≠ e0.script),
          if_pos hfull] at he
        simp at he
      · simp only [fillLoop, if_neg (by simp [hs] : ¬s ≠ e0.script),
          if_neg hfull] at he
        rcases hsug : e0.suggest env w out with _ | out1
        · rw [hsug] at he
          simp at he
          subst he
          exact ⟨hs.symm, by simp⟩
        · rw [hsug] at he
          simp at he
          rcases he with he | he
          · subst he; exact ⟨hs.symm, by simp⟩
          · obtain ⟨ha, hb⟩ := ih out1 e he
            exact ⟨ha, by simp [hb]⟩

/-! ## Concrete fixtures used by witnesses and counterexamples -/

/-- An inert environment: no dictionaries load, file writes fail. -/
def envA : Env where
  workingDir := ""
  isFile := fun _ => false
  makeHunspell := fun _ _ => ⟨"", fun _ => false, fun _ => []⟩
  codecForName := fun _ => none
  localeToScriptCode := fun _ => 0
  wordScript := fun _ => 0
  isWordSkippable := fun _ => false
  kMaxSuggestions := 1
  canWrite := false

/-- An environment where every dictionary loads and file writes succeed. -/
def envB : Env where
  workingDir := "wd"
  isFile := fun _ => true
  makeHunspell := fun _ _ => ⟨"enc", fun _ => false, fun _ => ["x"]⟩
  codecForName := fun _ => some ⟨id, id⟩
  localeToScriptCode := fun _ => 0
  wordScript := fun _ => 0
  isWordSkippable := fun _ => false
  kMaxSuggestions := 1
  canWrite := true

/-- The state of a freshly constructed service over a missing file. -/
def stEmpty : ServiceState := ⟨[], [], []⟩

/-- A single valid engine of script 0 whose decoder rejects every word
and always offers the single suggestion x. -/
def engX : HunspellEngine :=
  ⟨"en", 0, some ⟨"enc", fun _ => false, fun _ => ["x"]⟩, some ⟨id, id⟩⟩

/-! ## C1 -/

/-- C1: for every word w, checkSpelling(w) returns true if and only if w
is in ignored[scriptOf(w)], or in added[scriptOf(w)], or some held
engine of the same script accepts it; engines whose script differs from
scriptOf(w) are never consulted (every consulted engine has the script
of the word). Stated over any service state whose engines are all valid
and whose maps have the std::map shape. -/
theorem checkSpelling_c1 (env : Env) (st : ServiceState) (w : String)
    (hv : ∀ e ∈ st.engines, e.hunspell.isSome = true ∧ e.codec.isSome = true)
    (hkI : KeysSorted st.ignoredWords) (hkA : KeysSorted st.addedWords) :
    ((checkSpelling env st w).1).isSome = true
    ∧ ((checkSpelling env st w).1 = some true
        ↔ (w ∈ mapFind st.ignoredWords (env.wordScript w)
          ∨ w ∈ mapFind st.addedWords (env.wordScript w)
          ∨ ∃ e ∈ st.engines,
              e.script = env.wordScript w ∧ e.spell w = some true))
    ∧ (∀ e ∈ (checkEngines w (env.wordScript w) st.engines).2,
        e.script = env.wordScript w) := by
  refine ⟨?_, ?_, fun e he => (checkEngines_consulted w (env.wordScript w) st.engines e he).1⟩
  · unfold checkSpelling
    simp only [mapFind_mapEnsure _ _ _ hkI, mapFind_mapEnsure _ _ _ hkA]
    by_cases h1 : w ∈ mapFind st.ignoredWords (env.wordScript w)
    · simp [h1]
    · by_cases h2 : w ∈ mapFind st.addedWords (env.wordScript w)
      · simp [h1, h2]
      · simp only [h1, h2, if_false, if_neg h1, if_neg h2]
        exact checkEngines_isSome w (env.wordScript w) st.engines hv
  · unfold checkSpelling
    simp only [mapFind_mapEnsure _ _ _ hkI, mapFind_mapEnsure _ _ _ hkA]
    by_cases h1 : w ∈ mapFind st.ignoredWords (env.wordScript w)
    · simp [h1]
    · by_cases h2 : w ∈ mapFind st.addedWords (env.wordScript w)
      · simp [h1, h2]
      · simp only [if_neg h1, if_neg h2]
        rw [checkEngines_eq_true_iff w (env.wordScript w) st.engines hv]
        simp [h1, h2]

/-- Witness for C1 at a concrete input: the empty service and the word
a, all hypotheses discharged concretely. -/
theorem checkSpelling_c1_witness :
    ((checkSpelling envA stEmpty "a").1).isSome = true
    ∧ ((checkSpelling envA stEmpty "a").1 = some true
        ↔ ("a" ∈ mapFind stEmpty.ignoredWords (envA.wordScript "a")
          ∨ "a" ∈ mapFind stEmpty.addedWords (envA.wordScript "a")
          ∨ ∃ e ∈ stEmpty.engines,
              e.script = envA.wordScript "a" ∧ e.spell "a" = some true))
    ∧ (∀ e ∈ (checkEngines "a" (envA.wordScript "a") stEmpty.engines).2,
        e.script = envA.wordScript "a") :=
  checkSpelling_c1 envA stEmpty "a" (by simp [stEmpty])
    (by simp [stEmpty, KeysSorted]) (by simp [stEmpty, KeysSorted])

/-! ## C6 -/

/-- C6: immediately after updateLanguages(L) the set of tags returned by
activeLanguages() is a subset of L; every held engine has a tag in L,
and every previously held engine whose tag is not in L is no longer
held. -/
theorem updateLanguages_c6 (env : Env) (st : ServiceState) (langs : List String) :
    (∀ t ∈ activeLanguages (updateLanguages env st langs), t ∈ langs)
    ∧ (∀ e ∈ (updateLanguages env st langs).engines, e.lang ∈ langs)
    ∧ (∀ e ∈ st.engines, e.lang ∉ langs → e ∉ (updateLanguages env st langs).engines) := by
  have hmain : ∀ e ∈ (updateLanguages env st langs).engines, e.lang ∈ langs := by
    intro e he
    unfold updateLanguages at he
    simp only [List.mem_append] at he
    rcases he with he | he
    · have h2 := (List.mem_filter.mp he).2
      simpa using h2
    · obtain ⟨he2, hval⟩ := List.mem_filter.mp he
      obtain ⟨l, hl, hleq⟩ := List.mem_map.mp he2
      have hl2 : l ∈ langs := (List.mem_filter.mp hl).1
      rw [← hleq, make_lang]
      exact hl2
  refine ⟨?_, hmain, ?_⟩
  · intro t ht
    obtain ⟨e, he, heq⟩ := List.mem_map.mp ht
    rw [← heq]
    exact hmain e he
  · intro e _ hne hmem
    exact hne (hmain e hmem)

/-! ## C4 -/

/-- C4 counterexample: with MAX_SUGGESTIONS = 1 and a sink that already
holds two entries, fillSuggestionList appends a third entry, so the
claim that out ends with at most MAX_SUGGESTIONS entries fails at this
input. -/
theorem fillSuggestionList_c4_cex :
    (fillSuggestionList envB ⟨[engX], [], []⟩ "w" ["a", "b"]).1
      = some ["a", "b", "x"]
    ∧ ¬ ((["a", "b", "x"] : List String).length ≤ envB.kMaxSuggestions) := by
  constructor
  · rfl
  · decide

/-- C4 amended: when out initially holds at most MAX_SUGGESTIONS
entries (and the engines are valid, as the service keeps them),
fillSuggestionList only appends to out, ends with at most
MAX_SUGGESTIONS entries, leaves out untouched when it already held
exactly MAX_SUGGESTIONS, and consults only engines of the script of the
word. -/
theorem fillSuggestionList_c4 (env : Env) (st : ServiceState) (w : String)
    (out : List String)
    (hv : ∀ e ∈ st.engines, e.hunspell.isSome = true ∧ e.codec.isSome = true)
    (hlen : out.length ≤ env.kMaxSuggestions) :
    (∃ r, (fillSuggestionList env st w out).1 = some r
      ∧ r.length ≤ env.kMaxSuggestions ∧ ∃ extra, r = out ++ extra)
    ∧ (out.length = env.kMaxSuggestions
        → (fillSuggestionList env st w out).1 = some out)
    ∧ (∀ e ∈ (fillSuggestionList env st w out).2,
        e.script = env.wordScript w ∧ e ∈ st.engines) :=
  ⟨fillLoop_spec env w _ st.engines hv out hlen,
    fun h => fillLoop_at_max env w _ st.engines out h,
    fillLoop_consulted env w _ st.engines out⟩

/-- Witness for C4 amended at a concrete input: one valid engine, an
empty sink, MAX_SUGGESTIONS = 1. -/
theorem fillSuggestionList_c4_witness :
    (∃ r, (fillSuggestionList envB ⟨[engX], [], []⟩ "w" []).1 = some r
      ∧ r.length ≤ envB.kMaxSuggestions ∧ ∃ extra, r = [] ++ extra)
    ∧ (([] : List String).length = envB.kMaxSuggestions
        → (fillSuggestionList envB ⟨[engX], [], []⟩ "w" []).1 = some [])
    ∧ (∀ e ∈ (fillSuggestionList envB ⟨[engX], [], []⟩ "w" []).2,
        e.script = envB.wordScript "w"
          ∧ e ∈ (⟨[engX], [], []⟩ : ServiceState).engines) :=
  fillSuggestionList_c4 envB ⟨[engX], [], []⟩ "w" []
    (by
      intro e he
      rw [show (⟨[engX], [], []⟩ : ServiceState).engines = [engX] from rfl,
        List.mem_singleton] at he
      subst he
      exact ⟨rfl, rfl⟩)
    (by decide)

/-! ## C8 -/

/-- C8: when opening the persist file for writing fails, writeToFile
returns leaving the on-disk file unchanged, the addWord and removeWord
that triggered it keep their in-memory effect, and a word added below
the cap is still reported by isWordInDictionary. -/
theorem persistFailure_c8 (env : Env) (st : ServiceState) (world : World)
    (w : String) (hw : env.canWrite = false) (hk : KeysSorted st.addedWords)
    (hcap : totalAdded st.addedWords ≤ kMaxSyncableDictionaryWords) :
    writeToFile env st world = world
    ∧ (addWord env st world w).2 = world
    ∧ (removeWord env st world w).2 = world
    ∧ (isWordInDictionary env (addWord env st world w).1 w).1 = true := by
  have hwrite : ∀ st2, writeToFile env st2 world = world := by
    intro st2
    unfold writeToFile
    simp [hw]
  have hnotgt : ¬ totalAdded st.addedWords > kMaxSyncableDictionaryWords := by
    omega
  have hadd : addWord env st world w
      = ({ st with addedWords :=
            mapUpdate st.addedWords (env.wordScript w) (fun ws => ws ++ [w]) },
          world) := by
    unfold addWord
    rw [if_neg hnotgt]
    simp only [hwrite]
  refine ⟨hwrite st, by rw [hadd], ?_, ?_⟩
  · unfold removeWord
    simp only [hwrite]
  · rw [hadd]
    unfold isWordInDictionary
    have hk1 : KeysSorted (mapUpdate st.addedWords (env.wordScript w)
        (fun ws => ws ++ [w])) := keysSorted_mapUpdate _ _ _ hk
    simp only [mapFind_mapEnsure _ _ _ hk1,
      mapFind_mapUpdate_self _ _ _ hk]
    simp

/-- Witness for C8 at a concrete input: the inert environment (writes
fail), the empty service, a missing file and the word a. -/
theorem persistFailure_c8_witness :
    writeToFile envA stEmpty ⟨none⟩ = ⟨none⟩
    ∧ (addWord envA stEmpty ⟨none⟩ "a").2 = ⟨none⟩
    ∧ (removeWord envA stEmpty ⟨none⟩ "a").2 = ⟨none⟩
    ∧ (isWordInDictionary envA (addWord envA stEmpty ⟨none⟩ "a").1 "a").1 = true :=
  persistFailure_c8 envA stEmpty ⟨none⟩ "a" rfl
    (by simp [stEmpty, KeysSorted]) (by decide)

/-! ## C10 -/

theorem checkSpelling_idem (env : Env) (st : ServiceState) (w : String) :
    checkSpelling env (checkSpelling env st w).2 w = checkSpelling env st w := by
  by_cases h1 : w ∈ mapFind (mapEnsure st.ignoredWords (env.wordScript w))
      (env.wordScript w)
  · have hfst : checkSpelling env st w
        = (some true,
            { st with ignoredWords := mapEnsure st.ignoredWords (env.wordScript w) }) := by
      unfold checkSpelling
      simp [h1]
    rw [hfst]
    unfold checkSpelling
    simp [mapEnsure_mapEnsure, h1]
  · by_cases h2 : w ∈ mapFind (mapEnsure st.addedWords (env.wordScript w))
        (env.wordScript w)
    · have hfst : checkSpelling env st w
          = (some true,
              { st with
                ignoredWords := mapEnsure st.ignoredWords (env.wordScript w),
                addedWords := mapEnsure st.addedWords (env.wordScript w) }) := by
        unfold checkSpelling
        simp [h1, h2]
      rw [hfst]
      unfold checkSpelling
      simp [mapEnsure_mapEnsure, h1, h2]
    · have hfst : checkSpelling env st w
          = ((checkEngines w (env.wordScript w) st.engines).1,
              { st with
                ignoredWords := mapEnsure st.ignoredWords (env.wordScript w),
                addedWords := mapEnsure st.addedWords (env.wordScript w) }) := by
        unfold checkSpelling
        simp [h1, h2]
      rw [hfst]
      unfold checkSpelling
      simp [mapEnsure_mapEnsure, h1, h2]

theorem checkSpelling_state (env : Env) (st : ServiceState) (w : String) :
    ((checkSpelling env st w).2.engines = st.engines
      ∧ (checkSpelling env st w).2.ignoredWords
          = mapEnsure st.ignoredWords (env.wordScript w))
    ∧ ((checkSpelling env st w).2.addedWords = st.addedWords
      ∨ (checkSpelling env st w).2.addedWords
          = mapEnsure st.addedWords (env.wordScript w)) := by
  unfold checkSpelling
  by_cases h1 : w ∈ mapFind (mapEnsure st.ignoredWords (env.wordScript w))
      (env.wordScript w)
  · simp [h1]
  · by_cases h2 : w ∈ mapFind (mapEnsure st.addedWords (env.wordScript w))
        (env.wordScript w)
    · simp [h1, h2]
    · simp [h1, h2]

theorem isWordInDictionary_idem (env : Env) (st : ServiceState) (w : String) :
    isWordInDictionary env (isWordInDictionary env st w).2 w
      = isWordInDictionary env st w := by
  unfold isWordInDictionary
  simp [mapEnsure_mapEnsure]

/-- C10: checkSpelling and isWordInDictionary leave the words stored in
added and in ignored unchanged (at most a new empty bucket appears,
invisible to every bucket lookup), never touch the persisted file, and
return the same result and state when invoked twice in a row. Stated
over any service state with the std::map shape. -/
theorem readsFrame_c10 (env : Env) (st : ServiceState) (w : String)
    (hkI : KeysSorted st.ignoredWords) (hkA : KeysSorted st.addedWords) :
    (∀ s, mapFind (checkSpelling env st w).2.addedWords s = mapFind st.addedWords s)
    ∧ (∀ s, mapFind (checkSpelling env st w).2.ignoredWords s
        = mapFind st.ignoredWords s)
    ∧ (checkSpelling env st w).2.engines = st.engines
    ∧ checkSpelling env (checkSpelling env st w).2 w = checkSpelling env st w
    ∧ (∀ s, mapFind (isWordInDictionary env st w).2.addedWords s
        = mapFind st.addedWords s)
    ∧ (isWordInDictionary env st w).2.ignoredWords = st.ignoredWords
    ∧ (isWordInDictionary env st w).2.engines = st.engines
    ∧ isWordInDictionary env (isWordInDictionary env st w).2 w
        = isWordInDictionary env st w
    ∧ (∀ world : World,
        applyOp env (st, world) (Op.check w) = ((checkSpelling env st w).2, world)
        ∧ applyOp env (st, world) (Op.query w)
            = ((isWordInDictionary env st w).2, world)) := by
  obtain ⟨⟨heng, hign⟩, hadd⟩ := checkSpelling_state env st w
  refine ⟨?_, ?_, heng, checkSpelling_idem env st w, ?_, rfl, rfl,
    isWordInDictionary_idem env st w, fun world => ⟨rfl, rfl⟩⟩
  · intro s
    rcases hadd with h | h
    · rw [h]
    · rw [h, mapFind_mapEnsure _ _ _ hkA]
  · intro s
    rw [hign, mapFind_mapEnsure _ _ _ hkI]
  · intro s
    show mapFind (mapEnsure st.addedWords (env.wordScript w)) s = mapFind st.addedWords s
    exact mapFind_mapEnsure _ _ _ hkA

/-- Witness for C10 at a concrete input: the empty service and the word
a. -/
theorem readsFrame_c10_witness :
    (∀ s, mapFind (checkSpelling envA stEmpty "a").2.addedWords s
        = mapFind stEmpty.addedWords s)
    ∧ (∀ s, mapFind (checkSpelling envA stEmpty "a").2.ignoredWords s
        = mapFind stEmpty.ignoredWords s)
    ∧ (checkSpelling envA stEmpty "a").2.engines = stEmpty.engines
    ∧ checkSpelling envA (checkSpelling envA stEmpty "a").2 "a"
        = checkSpelling envA stEmpty "a"
    ∧ (∀ s, mapFind (isWordInDictionary envA stEmpty "a").2.addedWords s
        = mapFind stEmpty.addedWords s)
    ∧ (isWordInDictionary envA stEmpty "a").2.ignoredWords = stEmpty.ignoredWords
    ∧ (isWordInDictionary envA stEmpty "a").2.engines = stEmpty.engines
    ∧ isWordInDictionary envA (isWordInDictionary envA stEmpty "a").2 "a"
        = isWordInDictionary envA stEmpty "a"
    ∧ (∀ world : World,
        applyOp envA (stEmpty, world) (Op.check "a")
            = ((checkSpelling envA stEmpty "a").2, world)
        ∧ applyOp envA (stEmpty, world) (Op.query "a")
            = ((isWordInDictionary envA stEmpty "a").2, world)) :=
  readsFrame_c10 envA stEmpty "a" (by simp [stEmpty, KeysSorted])
    (by simp [stEmpty, KeysSorted])

/-! ## Lemmas about grouping into script runs and rebuilding the map -/

theorem groupAux_flatten (sc : String → Script) (l : List String) :
    ∀ first run, (groupAux sc first run l).flatten
      = (first :: run.reverse) ++ l := by
  induction l with
  | nil => intro first run; simp [groupAux]
  | cons x rest ih =>
    intro first run
    by_cases h : sc x == sc first
    · simp only [groupAux, if_pos h, ih]
      simp
    · simp only [groupAux, if_neg h, List.flatten_cons, ih]
      simp

theorem groupRuns_flatten (sc : String → Script) (l : List String) :
    (groupRuns sc l).flatten = l := by
  cases l with
  | nil => rfl
  | cons w rest =>
    show (groupAux sc w [] rest).flatten = w :: rest
    rw [groupAux_flatten]
    simp

theorem groupAux_sc (sc : String → Script) (l : List String) :
    ∀ first run, (∀ x ∈ run, sc x = sc first) →
      ∀ g ∈ groupAux sc first run l, ∀ x ∈ g, sc x = sc (g.headD "") := by
  induction l with
  | nil =>
    intro first run hrun g hg x hx
    simp only [groupAux, List.mem_singleton] at hg
    subst hg
    simp only [List.headD_cons]
    rcases List.mem_cons.mp hx with hx | hx
    · rw [hx]
    · exact hrun x (by simpa using hx)
  | cons y rest ih =>
    intro first run hrun g hg x hx
    by_cases h : sc y == sc first
    · simp only [groupAux, if_pos h] at hg
      refine ih first (y :: run) ?_ g hg x hx
      intro z hz
      rcases List.mem_cons.mp hz with hz | hz
      · rw [hz]
        exact beq_iff_eq.mp h
      · exact hrun z hz
    · simp only [groupAux, if_neg h, List.mem_cons] at hg
      rcases hg with hg | hg
      · subst hg
        simp only [List.headD_cons]
        rcases List.mem_cons.mp hx with hx | hx
        · rw [hx]
        · exact hrun x (by simpa using hx)
      · exact ih y [] (by simp) g hg x hx

theorem groupRuns_sc (sc : String → Script) (l : List String) :
    ∀ run ∈ groupRuns sc l, ∀ x ∈ run, sc x = sc (run.headD "") := by
  cases l with
  | nil => simp [groupRuns]
  | cons w rest =>
    intro run hrun x hx
    exact groupAux_sc sc rest w [] (by simp) run hrun x hx

theorem readBuckets_keysSorted (env : Env) (runs : List (List String)) :
    ∀ acc, KeysSorted acc →
      KeysSorted (runs.foldl
        (fun m run => mapInsertNew m (env.wordScript (run.headD "")) run) acc) := by
  induction runs with
  | nil => intro acc h; exact h
  | cons r rest ih =>
    intro acc h
    exact ih _ (keysSorted_mapInsertNew _ _ _ h)

theorem readBuckets_bucketsMatch (env : Env) (runs : List (List String))
    (hr : ∀ run ∈ runs, ∀ x ∈ run, env.wordScript x = env.wordScript (run.headD "")) :
    ∀ acc, BucketsMatch env.wordScript acc →
      BucketsMatch env.wordScript (runs.foldl
        (fun m run => mapInsertNew m (env.wordScript (run.headD "")) run) acc) := by
  induction runs with
  | nil => intro acc h; exact h
  | cons r rest ih =>
    intro acc h
    refine ih (fun run hrun => hr run (by simp [hrun])) _ ?_
    exact bucketsMatch_mapInsertNew _ _ _ _ h (hr r (by simp))

theorem readBuckets_total (env : Env) (runs : List (List String)) :
    ∀ acc, totalAdded (runs.foldl
        (fun m run => mapInsertNew m (env.wordScript (run.headD "")) run) acc)
      ≤ totalAdded acc + (runs.map List.length).sum := by
  induction runs with
  | nil => intro acc; simp
  | cons r rest ih =>
    intro acc
    calc totalAdded ((r :: rest).foldl
            (fun m run => mapInsertNew m (env.wordScript (run.headD "")) run) acc)
        ≤ totalAdded (mapInsertNew acc (env.wordScript (r.headD "")) r)
            + (rest.map List.length).sum := ih _
      _ ≤ totalAdded acc + r.length + (rest.map List.length).sum := by
          have := totalAdded_mapInsertNew_le acc (env.wordScript (r.headD "")) r
          omega
      _ = totalAdded acc + ((r :: rest).map List.length).sum := by
          simp only [List.map_cons, List.sum_cons]
          omega

/-! ## The service invariant and reachability -/

/-- The representation and validity invariant every reachable service
state keeps: both maps have the std::map shape, added words sit in the
bucket of their own script, the total added count never exceeds
kMaxSyncableDictionaryWords + 1, and every held engine is valid with a
non-null codec. -/
structure Inv (env : Env) (st : ServiceState) : Prop where
  keysA : KeysSorted st.addedWords
  keysI : KeysSorted st.ignoredWords
  buckets : BucketsMatch env.wordScript st.addedWords
  total : totalAdded st.addedWords ≤ kMaxSyncableDictionaryWords + 1
  valid : ∀ e ∈ st.engines, e.hunspell.isSome = true ∧ e.codec.isSome = true

theorem readWords_length_le (env : Env) (data : List Char) :
    (readWords env data).length ≤ kMaxSyncableDictionaryWords :=
  List.length_take_le _ _

theorem readAdded_keysSorted (env : Env) (data : List Char) :
    KeysSorted (readAdded env data) :=
  readBuckets_keysSorted env _ [] (by simp [KeysSorted])

theorem readAdded_bucketsMatch (env : Env) (data : List Char) :
    BucketsMatch env.wordScript (readAdded env data) :=
  readBuckets_bucketsMatch env _ (groupRuns_sc env.wordScript _) []
    (by intro p hp; simp at hp)

theorem readAdded_total (env : Env) (data : List Char) :
    totalAdded (readAdded env data) ≤ kMaxSyncableDictionaryWords := by
  have h1 := readBuckets_total env (groupRuns env.wordScript (readWords env data)) []
  have h2 : ((groupRuns env.wordScript (readWords env data)).map List.length).sum
      = (readWords env data).length := by
    rw [← List.length_flatten, groupRuns_flatten]
  have h3 := readWords_length_le env data
  unfold readAdded
  have h4 : totalAdded ([] : WordsMap) = 0 := rfl
  omega

theorem inv_readFile (env : Env) (st : ServiceState) (world : World)
    (h : Inv env st) : Inv env (readFile env st world).1 := by
  unfold readFile
  split
  · exact h
  · rename_i data heq
    split
    · exact h
    · show Inv env ⟨st.engines, st.ignoredWords, readAdded env data⟩
      refine ⟨readAdded_keysSorted env data, h.keysI,
        readAdded_bucketsMatch env data, ?_, h.valid⟩
      show totalAdded (readAdded env data) ≤ kMaxSyncableDictionaryWords + 1
      have h5 := readAdded_total env data
      omega

theorem inv_updateLanguages (env : Env) (st : ServiceState)
    (langs : List String) (h : Inv env st) :
    Inv env (updateLanguages env st langs) := by
  refine ⟨h.keysA, h.keysI, h.buckets, h.total, ?_⟩
  intro e he
  unfold updateLanguages at he
  simp only [List.mem_append] at he
  rcases he with he | he
  · exact h.valid e (List.mem_of_mem_filter he)
  · obtain ⟨he2, hval⟩ := List.mem_filter.mp he
    obtain ⟨l, _, hleq⟩ := List.mem_map.mp he2
    have hv : e.hunspell.isSome = true := by
      simpa [HunspellEngine.isValid] using hval
    refine ⟨hv, ?_⟩
    rw [← hleq] at hv ⊢
    exact make_valid_codec env l hv

theorem inv_addWord (env : Env) (st : ServiceState) (world : World)
    (w : String) (h : Inv env st) : Inv env (addWord env st world w).1 := by
  unfold addWord
  by_cases hc : totalAdded st.addedWords > kMaxSyncableDictionaryWords
  · rw [if_pos hc]
    exact h
  · rw [if_neg hc]
    show Inv env ⟨st.engines, st.ignoredWords,
      mapUpdate st.addedWords (env.wordScript w) (fun ws => ws ++ [w])⟩
    refine ⟨keysSorted_mapUpdate _ _ _ h.keysA, h.keysI, ?_, ?_, h.valid⟩
    · refine bucketsMatch_mapUpdate _ _ _ _ h.buckets ?_
      intro v hv x hx
      rcases List.mem_append.mp hx with hx | hx
      · exact hv x hx
      · rw [List.mem_singleton.mp hx]
    · rw [totalAdded_mapUpdate_append]
      unfold kMaxSyncableDictionaryWords at hc ⊢
      omega

theorem inv_removeWord (env : Env) (st : ServiceState) (world : World)
    (w : String) (h : Inv env st) : Inv env (removeWord env st world w).1 := by
  unfold removeWord
  show Inv env ⟨st.engines, st.ignoredWords,
    mapUpdate st.addedWords (env.wordScript w) (fun ws => ws.filter (fun x => x != w))⟩
  refine ⟨keysSorted_mapUpdate _ _ _ h.keysA, h.keysI, ?_, ?_, h.valid⟩
  · refine bucketsMatch_mapUpdate _ _ _ _ h.buckets ?_
    intro v hv x hx
    exact hv x (List.mem_of_mem_filter hx)
  · have h1 := totalAdded_mapUpdate_shrink st.addedWords (env.wordScript w)
      (fun ws => ws.filter (fun x => x != w))
      (fun v => List.length_filter_le _ v)
    have h2 := h.total
    show totalAdded (mapUpdate st.addedWords (env.wordScript w)
      (fun ws => ws.filter (fun x => x != w))) ≤ kMaxSyncableDictionaryWords + 1
    omega

theorem inv_ignoreWord (env : Env) (st : ServiceState) (w : String)
    (h : Inv env st) : Inv env (ignoreWord env st w) :=
  { keysA := h.keysA, keysI := keysSorted_mapUpdate _ _ _ h.keysI,
    buckets := h.buckets, total := h.total, valid := h.valid }

theorem inv_mapEnsure_added (env : Env) (st : ServiceState) (s : Script)
    (h : Inv env st) :
    Inv env { st with addedWords := mapEnsure st.addedWords s } :=
  { keysA := keysSorted_mapUpdate _ _ _ h.keysA, keysI := h.keysI,
    buckets := bucketsMatch_mapUpdate _ _ _ _ h.buckets (fun v hv x hx => hv x hx),
    total := by rw [totalAdded_mapEnsure]; exact h.total,
    valid := h.valid }

theorem inv_checkSpelling (env : Env) (st : ServiceState) (w : String)
    (h : Inv env st) : Inv env (checkSpelling env st w).2 := by
  obtain ⟨⟨heng, hign⟩, hadd⟩ := checkSpelling_state env st w
  refine { keysA := ?_, keysI := ?_, buckets := ?_, total := ?_, valid := ?_ }
  · rcases hadd with h2 | h2 <;> rw [h2]
    · exact h.keysA
    · exact keysSorted_mapUpdate _ _ _ h.keysA
  · rw [hign]
    exact keysSorted_mapUpdate _ _ _ h.keysI
  · rcases hadd with h2 | h2 <;> rw [h2]
    · exact h.buckets
    · exact bucketsMatch_mapUpdate _ _ _ _ h.buckets (fun v hv x hx => hv x hx)
  · rcases hadd with h2 | h2 <;> rw [h2]
    · exact h.total
    · rw [totalAdded_mapEnsure]
      exact h.total
  · rw [heng]
    exact h.valid

theorem inv_isWordInDictionary (env : Env) (st : ServiceState) (w : String)
    (h : Inv env st) : Inv env (isWordInDictionary env st w).2 :=
  inv_mapEnsure_added env st (env.wordScript w) h

theorem inv_applyOp (env : Env) (st : ServiceState) (world : World) (op : Op)
    (h : Inv env st) : Inv env (applyOp env (st, world) op).1 := by
  cases op with
  | update langs => exact inv_updateLanguages env st langs h
  | add w => exact inv_addWord env st world w h
  | remove w => exact inv_removeWord env st world w h
  | ignore w => exact inv_ignoreWord env st w h
  | check w => exact inv_checkSpelling env st w h
  | query w => exact inv_isWordInDictionary env st w h
  | fill w out => exact h

theorem inv_runOps (env : Env) (ops : List Op) :
    ∀ st world, Inv env st → Inv env (runOps env (st, world) ops).1 := by
  induction ops with
  | nil => intro st world h; exact h
  | cons op rest ih =>
    intro st world h
    have h2 := inv_applyOp env st world op h
    unfold runOps
    rw [List.foldl_cons]
    exact ih (applyOp env (st, world) op).1 (applyOp env (st, world) op).2 h2

theorem inv_empty (env : Env) : Inv env stEmpty :=
  { keysA := by simp [stEmpty, KeysSorted]
    keysI := by simp [stEmpty, KeysSorted]
    buckets := by intro p hp; simp [stEmpty] at hp
    total := by simp [stEmpty, totalAdded, kMaxSyncableDictionaryWords]
    valid := by intro e he; simp [stEmpty] at he }

theorem inv_reachable (env : Env) (world0 : World) (ops : List Op) :
    Inv env (reachable env world0 ops).1 := by
  unfold reachable serviceInit
  have h0 : Inv env (readFile env stEmpty world0).1 :=
    inv_readFile env stEmpty world0 (inv_empty env)
  exact inv_runOps env ops (readFile env ⟨[], [], []⟩ world0).1
    (readFile env ⟨[], [], []⟩ world0).2 h0

/-! ## C9 -/

theorem fillLoop_isSome (env : Env) (w : String) (s : Script)
    (es : List HunspellEngine)
    (hv : ∀ e ∈ es, e.hunspell.isSome = true ∧ e.codec.isSome = true) :
    ∀ out, ((fillLoop env w s es out).1).isSome = true := by
  induction es with
  | nil => intro out; rfl
  | cons e0 rest ih =>
    have hv0 := hv e0 (by simp)
    have hvr : ∀ e ∈ rest, e.hunspell.isSome = true ∧ e.codec.isSome = true :=
      fun e he => hv e (by simp [he])
    intro out
    by_cases hs : s ≠ e0.script
    · simpa only [fillLoop, if_pos hs] using ih hvr out
    · by_cases hfull : out.length = env.kMaxSuggestions
      · simp [fillLoop, if_neg hs, hfull]
      · obtain ⟨hh, hheq⟩ := Option.isSome_iff_exists.mp hv0.1
        obtain ⟨cc, hceq⟩ := Option.isSome_iff_exists.mp hv0.2
        have hsug : e0.suggest env w out
            = some (appendGuesses env.kMaxSuggestions cc.toUnicode
                (hh.suggest (cc.fromUnicode w)) out) := by
          unfold HunspellEngine.suggest
          rw [hheq, hceq]
        have hred : fillLoop env w s (e0 :: rest) out
            = ((fillLoop env w s rest (appendGuesses env.kMaxSuggestions cc.toUnicode
                  (hh.suggest (cc.fromUnicode w)) out)).1,
                e0 :: (fillLoop env w s rest (appendGuesses env.kMaxSuggestions cc.toUnicode
                  (hh.suggest (cc.fromUnicode w)) out)).2) := by
          simp only [fillLoop, if_neg hs, if_neg hfull]
          rw [hsug]
        rw [hred]
        exact ih hvr _

theorem checkSpelling_isSome (env : Env) (st : ServiceState) (w : String)
    (hv : ∀ e ∈ st.engines, e.hunspell.isSome = true ∧ e.codec.isSome = true) :
    ((checkSpelling env st w).1).isSome = true := by
  unfold checkSpelling
  by_cases h1 : w ∈ mapFind (mapEnsure st.ignoredWords (env.wordScript w))
      (env.wordScript w)
  · simp [h1]
  · by_cases h2 : w ∈ mapFind (mapEnsure st.addedWords (env.wordScript w))
        (env.wordScript w)
    · simp [h1, h2]
    · simp only [h1, h2, if_false, if_neg h1, if_neg h2]
      exact checkEngines_isSome w (env.wordScript w) st.engines hv

/-- C9: every engine held by a reachable service state is valid, with a
non-null decoder handle and a non-null codec; consequently the
unguarded dereferences inside spell and suggest always succeed when
checkSpelling or fillSuggestionList runs (their results are never the
undefined-behaviour marker). -/
theorem enginesValid_c9 (env : Env) (world0 : World) (ops : List Op) :
    (∀ e ∈ (reachable env world0 ops).1.engines,
      e.isValid = true ∧ e.hunspell.isSome = true ∧ e.codec.isSome = true)
    ∧ (∀ w : String,
        ((checkSpelling env (reachable env world0 ops).1 w).1).isSome = true)
    ∧ (∀ (w : String) (out : List String),
        ((fillSuggestionList env (reachable env world0 ops).1 w out).1).isSome = true) := by
  have hv := (inv_reachable env world0 ops).valid
  refine ⟨?_, ?_, ?_⟩
  · intro e he
    obtain ⟨h1, h2⟩ := hv e he
    exact ⟨by simpa [HunspellEngine.isValid] using h1, h1, h2⟩
  · intro w
    exact checkSpelling_isSome env _ w hv
  · intro w out
    exact fillLoop_isSome env w (env.wordScript w) _ hv out

/-! ## C2 -/

theorem addIter_replicate (n : Nat) (hn : n ≤ kMaxSyncableDictionaryWords + 1) :
    runOps envA (stEmpty, ⟨none⟩) (List.replicate n (Op.add "a"))
      = (⟨[], [], if n = 0 then [] else [(0, List.replicate n "a")]⟩, ⟨none⟩) := by
  induction n with
  | zero => rfl
  | succ k ih =>
    rw [List.replicate_succ']
    unfold runOps
    rw [List.foldl_append]
    have ihh := ih (by omega)
    unfold runOps at ihh
    rw [ihh]
    by_cases hk : k = 0
    · subst hk
      rfl
    · rw [if_neg hk]
      simp only [List.foldl_cons, List.foldl_nil]
      show addWord envA ⟨[], [], [(0, List.replicate k "a")]⟩ ⟨none⟩ "a"
        = (⟨[], [], if k + 1 = 0 then [] else [(0, List.replicate (k + 1) "a")]⟩, ⟨none⟩)
      rw [if_neg (by omega : ¬k + 1 = 0)]
      unfold addWord
      have htot : totalAdded [(0, List.replicate k "a")] = k := by
        simp [totalAdded]
      rw [htot] at *
      have hcond : ¬k > kMaxSyncableDictionaryWords := by
        unfold kMaxSyncableDictionaryWords at hn ⊢
        omega
      rw [if_neg (by rw [htot]; exact hcond)]
      have hupd : mapUpdate [(0, List.replicate k "a")] (envA.wordScript "a")
          (fun ws => ws ++ ["a"]) = [(0, List.replicate (k + 1) "a")] := by
        show mapUpdate [(0, List.replicate k "a")] 0 (fun ws => ws ++ ["a"])
          = [(0, List.replicate (k + 1) "a")]
        simp [mapUpdate, List.replicate_succ']
      simp only [hupd]
      rfl

/-- C2 counterexample: starting from an empty service, 1301 addWord
calls all succeed, so a reachable added content holds 1301 words,
exceeding MAX_ADDED = 1300; the cap of the claim is off by one. -/
theorem addWordCap_c2_cex :
    totalAdded (reachable envA ⟨none⟩
        (List.replicate 1301 (Op.add "a"))).1.addedWords = 1301
    ∧ ¬ (totalAdded (reachable envA ⟨none⟩
        (List.replicate 1301 (Op.add "a"))).1.addedWords
          ≤ kMaxSyncableDictionaryWords) := by
  have h2 : reachable envA ⟨none⟩ (List.replicate 1301 (Op.add "a"))
      = (⟨[], [], [(0, List.replicate 1301 "a")]⟩, ⟨none⟩) := by
    unfold reachable
    have hinit : serviceInit envA ⟨none⟩ = (stEmpty, ⟨none⟩) := rfl
    rw [hinit]
    have h := addIter_replicate 1301 (by norm_num [kMaxSyncableDictionaryWords])
    rw [h, if_neg (by norm_num : ¬(1301 = 0))]
  have htot : totalAdded [((0 : Script), List.replicate 1301 "a")] = 1301 := by
    simp only [totalAdded, List.map_cons, List.map_nil, List.sum_cons, List.sum_nil,
      List.length_replicate]
    omega
  rw [h2]
  constructor
  · show totalAdded [((0 : Script), List.replicate 1301 "a")] = 1301
    exact htot
  · show ¬ (totalAdded [((0 : Script), List.replicate 1301 "a")]
      ≤ kMaxSyncableDictionaryWords)
    rw [htot]
    decide

/-- C2 amended: after any sequence of service operations the total word
count of added across all scripts is at most MAX_ADDED + 1 = 1301 (the
cap comparison in the source is strict, so one word above MAX_ADDED is
reachable), and an addWord invoked when the total already exceeds
MAX_ADDED is silently rejected: the state and the persisted file are
unchanged by it. -/
theorem addWordCap_c2 (env : Env) (world0 : World) (ops : List Op) :
    totalAdded (reachable env world0 ops).1.addedWords
        ≤ kMaxSyncableDictionaryWords + 1
    ∧ (∀ (st : ServiceState) (world : World) (w : String),
        totalAdded st.addedWords > kMaxSyncableDictionaryWords →
          addWord env st world w = (st, world)) := by
  refine ⟨(inv_reachable env world0 ops).total, ?_⟩
  intro st world w hgt
  unfold addWord
  rw [if_pos hgt]

/-! ## C5 -/


theorem updateLanguages_nodup (env : Env) (st : ServiceState)
    (langs : List String)
    (h : (st.engines.map HunspellEngine.lang).Nodup) (hl : langs.Nodup) :
    ((updateLanguages env st langs).engines.map HunspellEngine.lang).Nodup := by
  unfold updateLanguages
  set retained := st.engines.filter (fun e => langs.contains e.lang) with hret
  set missing := langs.filter
    (fun l => !(retained.map HunspellEngine.lang).contains l) with hmis
  set fresh := (missing.map (HunspellEngine.make env)).filter
    HunspellEngine.isValid with hfre
  rw [List.map_append, List.nodup_append]
  have hmissNodup : missing.Nodup :=
    List.Nodup.sublist (List.filter_sublist langs) hl
  have h1 : fresh.Sublist (missing.map (HunspellEngine.make env)) :=
    List.filter_sublist _
  have h2 : (fresh.map HunspellEngine.lang).Sublist
      ((missing.map (HunspellEngine.make env)).map HunspellEngine.lang) :=
    h1.map HunspellEngine.lang
  have h3 : (missing.map (HunspellEngine.make env)).map HunspellEngine.lang
      = missing := by
    rw [List.map_map]
    have h4 : missing.map (HunspellEngine.lang ∘ HunspellEngine.make env)
        = missing.map (fun l => l) :=
      List.map_congr_left (fun l _ => make_lang env l)
    rw [h4]
    simp
  rw [h3] at h2
  refine ⟨List.Nodup.sublist (List.Sublist.map HunspellEngine.lang
    (List.filter_sublist st.engines)) h, List.Nodup.sublist h2 hmissNodup, ?_⟩
  intro t ht1 ht2
  have ht3 : t ∈ missing := h2.subset ht2
  obtain ⟨_, hcond⟩ := List.mem_filter.mp ht3
  simp only [Bool.not_eq_eq_eq_not, Bool.not_true] at hcond
  have ht4 : t ∉ retained.map HunspellEngine.lang := by
    intro hmem
    have hc : (retained.map HunspellEngine.lang).contains t = true := by
      simpa using hmem
    rw [hc] at hcond
    exact Bool.true_eq_false.mp hcond
  exact ht4 ht1

theorem nodup_runOps (env : Env) (ops : List Op)
    (hops : ∀ langs, Op.update langs ∈ ops → langs.Nodup) :
    ∀ st world, (st.engines.map HunspellEngine.lang).Nodup →
      ((runOps env (st, world) ops).1.engines.map HunspellEngine.lang).Nodup := by
  induction ops with
  | nil => intro st world h; exact h
  | cons op rest ih =>
    intro st world h
    unfold runOps
    rw [List.foldl_cons]
    refine ih (fun langs hlm => hops langs (by simp [hlm]))
      (applyOp env (st, world) op).1 (applyOp env (st, world) op).2 ?_
    cases op with
    | update langs => exact updateLanguages_nodup env st langs h (hops langs (by simp))
    | add w =>
      show ((addWord env st world w).1.engines.map HunspellEngine.lang).Nodup
      unfold addWord
      split
      · exact h
      · exact h
    | remove w => exact h
    | ignore w => exact h
    | check w =>
      have hh : (checkSpelling env st w).2.engines = st.engines :=
        (checkSpelling_state env st w).1.1
      show (((checkSpelling env st w).2.engines).map HunspellEngine.lang).Nodup
      rw [hh]
      exact h
    | query w => exact h
    | fill w out => exact h

/-- C5 counterexample: updateLanguages with the duplicated input
[en, en] on an empty service constructs and keeps two valid engines
with the same LanguageTag, so the engine collection holds two engines
for one tag. -/
theorem updateDup_c5_cex :
    ((reachable envB ⟨none⟩ [Op.update ["en", "en"]]).1.engines.map
        HunspellEngine.lang) = ["en", "en"]
    ∧ ¬ ((reachable envB ⟨none⟩ [Op.update ["en", "en"]]).1.engines.map
        HunspellEngine.lang).Nodup := by
  constructor
  · rfl
  · intro hnd
    rw [show ((reachable envB ⟨none⟩ [Op.update ["en", "en"]]).1.engines.map
        HunspellEngine.lang) = ["en", "en"] from rfl] at hnd
    simp at hnd

/-- C5 amended: after any sequence of updateLanguages calls whose input
sequences contain no repeated LanguageTag, the engine collection holds
at most one engine per LanguageTag; a repeated tag within one input
sequence can construct duplicate engines, because the missing-language
list is materialised before any engine is constructed. -/
theorem updateNodup_c5 (env : Env) (world0 : World) (ops : List Op)
    (hops : ∀ langs, Op.update langs ∈ ops → langs.Nodup) :
    ((reachable env world0 ops).1.engines.map HunspellEngine.lang).Nodup := by
  unfold reachable serviceInit
  refine nodup_runOps env ops hops (readFile env ⟨[], [], []⟩ world0).1
    (readFile env ⟨[], [], []⟩ world0).2 ?_
  have he : (readFile env ⟨[], [], []⟩ world0).1.engines = [] := by
    unfold readFile
    split
    · rfl
    · split
      · rfl
      · rfl
  rw [he]
  simp

/-- Witness for C5 amended at a concrete input: one update call with
the duplicate-free input [en]. -/
theorem updateNodup_c5_witness :
    ((reachable envB ⟨none⟩ [Op.update ["en"]]).1.engines.map
        HunspellEngine.lang).Nodup :=
  updateNodup_c5 envB ⟨none⟩ [Op.update ["en"]]
    (by
      intro langs hlm
      simp only [List.mem_singleton] at hlm
      cases hlm
      simp)

/-! ## Lemmas about the on-disk format -/

theorem mk_data (s : String) : String.mk s.data = s := rfl

theorem splitChar_ne_nil (sep : Char) (l : List Char) : splitChar sep l ≠ [] := by
  induction l with
  | nil => simp [splitChar]
  | cons c r ih =>
    have hdef : splitChar sep (c :: r) =
        match splitChar sep r with
        | [] => [[c]]
        | g :: gs => if c = sep then [] :: g :: gs else (c :: g) :: gs := rfl
    rw [hdef]
    rcases h : splitChar sep r with _ | ⟨g, gs⟩
    · exact absurd h ih
    · by_cases hcs : c = sep <;> simp [hcs]

theorem splitChar_append_sep (sep : Char) (w rest : List Char)
    (hw : sep ∉ w) : splitChar sep (w ++ sep :: rest) = w :: splitChar sep rest := by
  induction w with
  | nil =>
    have hdef : splitChar sep (sep :: rest) =
        match splitChar sep rest with
        | [] => [[sep]]
        | g :: gs => if sep = sep then [] :: g :: gs else (sep :: g) :: gs := rfl
    simp only [List.nil_append, hdef]
    rcases h : splitChar sep rest with _ | ⟨g, gs⟩
    · exact absurd h (splitChar_ne_nil sep rest)
    · simp
  | cons c w2 ih =>
    have hc : c ≠ sep := fun hcs => hw (by simp [hcs])
    have hw2 : sep ∉ w2 := fun hm => hw (by simp [hm])
    have hdef : splitChar sep (c :: (w2 ++ sep :: rest)) =
        match splitChar sep (w2 ++ sep :: rest) with
        | [] => [[c]]
        | g :: gs => if c = sep then [] :: g :: gs else (c :: g) :: gs := rfl
    simp only [List.cons_append, hdef, ih hw2]
    simp [hc]

theorem splitChar_flatten (sep : Char) (ws : List (List Char))
    (hws : ∀ w ∈ ws, sep ∉ w) :
    splitChar sep ((ws.map (fun w => w ++ [sep])).flatten) = ws ++ [[]] := by
  induction ws with
  | nil => simp [splitChar]
  | cons w rest ih =>
    have hw : sep ∉ w := hws w (by simp)
    have hrest : ∀ x ∈ rest, sep ∉ x := fun x hx => hws x (by simp [hx])
    simp only [List.map_cons, List.flatten_cons, List.append_assoc,
      List.singleton_append]
    rw [splitChar_append_sep sep w _ hw, ih hrest]
    simp

theorem parsedWords_writeToFile (env : Env) (st : ServiceState) (world : World)
    (hwr : env.canWrite = true)
    (hwords : ∀ w ∈ joinValues st.addedWords, kLineBreakChar ∉ w.data) :
    parsedWords (writeToFile env st world) = joinValues st.addedWords ++ [""] := by
  have hfile : writeToFile env st world = ⟨some (renderAdded st.addedWords)⟩ := by
    unfold writeToFile
    simp [hwr]
  rw [hfile]
  show (splitChar kLineBreakChar (renderAdded st.addedWords)).map String.mk
    = joinValues st.addedWords ++ [""]
  unfold renderAdded
  rw [show ((joinValues st.addedWords).map (fun w => w.data ++ [kLineBreakChar]))
      = (((joinValues st.addedWords).map String.data).map
          (fun w => w ++ [kLineBreakChar])) from by rw [List.map_map]; rfl]
  rw [splitChar_flatten kLineBreakChar _ (by
    intro w hw
    obtain ⟨x, hx, hxeq⟩ := List.mem_map.mp hw
    rw [← hxeq]
    exact hwords x hx)]
  rw [List.map_append, List.map_map]
  congr 1
  exact (List.map_congr_left (fun x _ => mk_data x)).trans (List.map_id _)

/-! ## Lemmas for script-run contiguity of the persisted file -/

theorem mem_uniqAux {α : Type} [DecidableEq α] (prev : α) (l : List α) :
    ∀ x ∈ uniqAux prev l, x ∈ l := by
  induction l generalizing prev with
  | nil => simp [uniqAux]
  | cons b rest ih =>
    intro x hx
    by_cases hpb : prev = b
    · simp only [uniqAux, if_pos hpb] at hx
      exact List.mem_cons_of_mem b (ih prev x hx)
    · simp only [uniqAux, if_neg hpb, List.mem_cons] at hx
      rcases hx with hx | hx
      · simp [hx]
      · exact List.mem_cons_of_mem b (ih b x hx)

theorem mem_uniqueAdjacent {α : Type} [DecidableEq α] (l : List α) :
    ∀ x ∈ uniqueAdjacent l, x ∈ l := by
  cases l with
  | nil => simp [uniqueAdjacent]
  | cons a rest =>
    intro x hx
    simp only [uniqueAdjacent, List.mem_cons] at hx
    rcases hx with hx | hx
    · simp [hx]
    · exact List.mem_cons_of_mem a (mem_uniqAux a rest x hx)

theorem uniqAux_const_append {α : Type} [DecidableEq α] (k : α) (A T : List α)
    (hA : ∀ a ∈ A, a = k) (hT : ∀ t ∈ T, t ≠ k) :
    uniqAux k (A ++ T) = uniqueAdjacent T := by
  induction A with
  | nil =>
    simp only [List.nil_append]
    cases T with
    | nil => rfl
    | cons t T2 =>
      have ht : t ≠ k := hT t (by simp)
      simp only [uniqAux, uniqueAdjacent, if_neg (Ne.symm ht)]
  | cons a A2 ih =>
    have ha : a = k := hA a (by simp)
    rw [List.cons_append, ha]
    simp only [uniqAux, if_pos rfl]
    exact ih (fun x hx => hA x (by simp [hx]))

theorem uniqueAdjacent_const_append {α : Type} [DecidableEq α] (k : α)
    (A T : List α) (hA : ∀ a ∈ A, a = k) (hT : ∀ t ∈ T, t ≠ k) (hAne : A ≠ []) :
    uniqueAdjacent (A ++ T) = k :: uniqueAdjacent T := by
  cases A with
  | nil => exact absurd rfl hAne
  | cons a A2 =>
    have ha : a = k := hA a (by simp)
    rw [List.cons_append, ha]
    show k :: uniqAux k (A2 ++ T) = k :: uniqueAdjacent T
    rw [uniqAux_const_append k A2 T (fun x hx => hA x (by simp [hx])) hT]

theorem mem_joinValues (m : WordsMap) (x : String) (hx : x ∈ joinValues m) :
    ∃ p ∈ m, x ∈ p.2 := by
  unfold joinValues at hx
  obtain ⟨l, hl, hxl⟩ := List.mem_flatten.mp hx
  obtain ⟨p, hp, hpl⟩ := List.mem_map.mp hl
  exact ⟨p, hp, by rw [hpl]; exact hxl⟩

theorem scripts_pairwise (sc : String → Script) (m : WordsMap)
    (hk : KeysSorted m) (hb : BucketsMatch sc m) :
    List.Pairwise (fun a b => a < b) (uniqueAdjacent ((joinValues m).map sc)) := by
  induction m with
  | nil => simp [joinValues, uniqueAdjacent]
  | cons p rest ih =>
    obtain ⟨k, v⟩ := p
    rw [KeysSorted, List.pairwise_cons] at hk
    obtain ⟨hall, hrest⟩ := hk
    have hbrest : BucketsMatch sc rest := fun q hq x hx => hb q (by simp [hq]) x hx
    have hbv : ∀ x ∈ v, sc x = k := fun x hx => hb (k, v) (by simp) x hx
    have hTgt : ∀ t ∈ (joinValues rest).map sc, k < t := by
      intro t ht
      obtain ⟨x, hx, hxeq⟩ := List.mem_map.mp ht
      obtain ⟨q, hq, hxq⟩ := mem_joinValues rest x hx
      have h1 : sc x = q.1 := hbrest q hq x hxq
      have h2 : k < q.1 := hall q hq
      rw [← hxeq, h1]
      exact h2
    have hjv : joinValues ((k, v) :: rest) = v ++ joinValues rest := by
      simp [joinValues]
    rw [hjv, List.map_append]
    have hAconst : ∀ a ∈ v.map sc, a = k := by
      intro a ha
      obtain ⟨x, hx, he⟩ := List.mem_map.mp ha
      rw [← he]
      exact hbv x hx
    have hTne : ∀ t ∈ (joinValues rest).map sc, t ≠ k :=
      fun t ht => (Nat.ne_of_lt (hTgt t ht)).symm
    by_cases hv : v.map sc = []
    · rw [hv, List.nil_append]
      exact ih hrest hbrest
    · rw [uniqueAdjacent_const_append k _ _ hAconst hTne hv, List.pairwise_cons]
      refine ⟨?_, ih hrest hbrest⟩
      intro t ht
      exact hTgt t (mem_uniqueAdjacent _ t ht)

theorem scripts_contiguous (sc : String → Script) (m : WordsMap)
    (hk : KeysSorted m) (hb : BucketsMatch sc m) :
    (uniqueAdjacent ((joinValues m).map sc)).Nodup :=
  (scripts_pairwise sc m hk hb).imp (fun h => Nat.ne_of_lt h)

/-! ## C7 -/

/-- C7 counterexample: two addWord calls for the same word a are both
kept (adds are not deduplicated), so after the successful writeToFile
the persisted file lists a twice, not exactly once. -/
theorem persistDup_c7_cex :
    List.count "a" (parsedWords
        (reachable envB ⟨none⟩ [Op.add "a", Op.add "a"]).2) = 2
    ∧ ¬ (List.count "a" (parsedWords
        (reachable envB ⟨none⟩ [Op.add "a", Op.add "a"]).2) = 1) := by
  constructor
  · rfl
  · intro h
    rw [show List.count "a" (parsedWords
        (reachable envB ⟨none⟩ [Op.add "a", Op.add "a"]).2) = 2 from rfl] at h
    simp at h

/-- C7 amended: after a successful writeToFile on any reachable state
whose added words are nonempty and free of the line terminator, the
persisted file lists the added words of each script bucket in order,
each word appearing exactly as often as it occurs in added (duplicate
adds are written repeatedly, per invariant I7), followed by one empty
last line, and the scripts of the listed words form contiguous runs
(no script recurs after a different script intervened). -/
theorem persistRuns_c7 (env : Env) (world0 : World) (ops : List Op)
    (hwr : env.canWrite = true)
    (hwords : ∀ w ∈ joinValues (reachable env world0 ops).1.addedWords,
      kLineBreakChar ∉ w.data) :
    parsedWords (writeToFile env (reachable env world0 ops).1
        (reachable env world0 ops).2)
      = joinValues (reachable env world0 ops).1.addedWords ++ [""]
    ∧ (uniqueAdjacent ((joinValues (reachable env world0 ops).1.addedWords).map
        env.wordScript)).Nodup := by
  have hinv := inv_reachable env world0 ops
  exact ⟨parsedWords_writeToFile env _ _ hwr hwords,
    scripts_contiguous env.wordScript _ hinv.keysA hinv.buckets⟩

/-- Witness for C7 amended at a concrete input: one added word. -/
theorem persistRuns_c7_witness :
    parsedWords (writeToFile envB (reachable envB ⟨none⟩ [Op.add "a"]).1
        (reachable envB ⟨none⟩ [Op.add "a"]).2)
      = joinValues (reachable envB ⟨none⟩ [Op.add "a"]).1.addedWords ++ [""]
    ∧ (uniqueAdjacent ((joinValues (reachable envB ⟨none⟩ [Op.add "a"]).1.addedWords).map
        envB.wordScript)).Nodup :=
  persistRuns_c7 envB ⟨none⟩ [Op.add "a"] rfl (by decide)

/-! ## The sort order: totality, transitivity, antisymmetry -/

theorem charListLe_total (a b : List Char) :
    charListLe a b = true ∨ charListLe b a = true := by
  induction a generalizing b with
  | nil => exact Or.inl rfl
  | cons x xs ih =>
    cases b with
    | nil => exact Or.inr rfl
    | cons y ys =>
      by_cases h1 : x < y
      · exact Or.inl (by simp [charListLe, h1])
      · by_cases h2 : y < x
        · exact Or.inr (by simp [charListLe, h2])
        · have hxy : x = y := le_antisymm (not_lt.mp h2) (not_lt.mp h1)
          subst hxy
          rcases ih ys with h | h
          · exact Or.inl (by simp [charListLe, lt_irrefl, h])
          · exact Or.inr (by simp [charListLe, lt_irrefl, h])

theorem charListLe_trans (a b c : List Char) (h1 : charListLe a b = true)
    (h2 : charListLe b c = true) : charListLe a c = true := by
  induction a generalizing b c with
  | nil => rfl
  | cons x xs ih =>
    cases b with
    | nil => simp [charListLe] at h1
    | cons y ys =>
      cases c with
      | nil => simp [charListLe] at h2
      | cons z zs =>
        by_cases hxy : x < y
        · by_cases hyz : y < z
          · simp [charListLe, lt_trans hxy hyz]
          · by_cases hzy : z < y
            · simp [charListLe, hyz, hzy] at h2
            · have hyz2 : y = z := le_antisymm (not_lt.mp hzy) (not_lt.mp hyz)
              subst hyz2
              simp [charListLe, hxy]
        · by_cases hyx : y < x
          · simp [charListLe, hxy, hyx] at h1
          · have hxy2 : x = y := le_antisymm (not_lt.mp hyx) (not_lt.mp hxy)
            subst hxy2
            simp only [charListLe, lt_irrefl, if_false] at h1
            by_cases hxz : x < z
            · simp [charListLe, hxz]
            · by_cases hzx : z < x
              · simp [charListLe, hxz, hzx] at h2
              · have hxz2 : x = z := le_antisymm (not_lt.mp hzx) (not_lt.mp hxz)
                subst hxz2
                simp only [charListLe, lt_irrefl, if_false] at h2 ⊢
                exact ih ys zs h1 h2

theorem charListLe_antisymm (a b : List Char) (h1 : charListLe a b = true)
    (h2 : charListLe b a = true) : a = b := by
  induction a generalizing b with
  | nil =>
    cases b with
    | nil => rfl
    | cons y ys => simp [charListLe] at h2
  | cons x xs ih =>
    cases b with
    | nil => simp [charListLe] at h1
    | cons y ys =>
      by_cases hxy : x < y
      · simp [charListLe, hxy, asymm hxy] at h2
      · by_cases hyx : y < x
        · simp [charListLe, hxy, hyx] at h1
        · have hx : x = y := le_antisymm (not_lt.mp hyx) (not_lt.mp hxy)
          subst hx
          simp only [charListLe, lt_irrefl, if_false] at h1 h2
          rw [ih ys h1 h2]

theorem string_data_inj (a b : String) (h : a.data = b.data) : a = b := by
  cases a
  cases b
  exact congrArg String.mk h

instance : IsTotal String wordLeP :=
  ⟨fun a b => charListLe_total a.data b.data⟩

instance : IsTrans String wordLeP :=
  ⟨fun a b c => charListLe_trans a.data b.data c.data⟩

instance : IsAntisymm String wordLeP :=
  ⟨fun a b h1 h2 => string_data_inj a b (charListLe_antisymm a.data b.data h1 h2)⟩

theorem sortWords_perm (l : List String) : (sortWords l).Perm l :=
  List.perm_insertionSort wordLeP l

theorem sortWords_sorted (l : List String) : List.Sorted wordLeP (sortWords l) :=
  List.sorted_insertionSort wordLeP l

theorem wordLeP_empty (s : String) : wordLeP "" s := rfl

theorem sortWords_append_empty (l : List String) :
    sortWords (l ++ [""]) = "" :: sortWords l := by
  have h1 : (sortWords (l ++ [""])).Perm ("" :: sortWords l) := by
    refine (sortWords_perm _).trans ?_
    refine List.perm_append_comm.trans ?_
    exact ((sortWords_perm l).symm).cons ""
  have h2 : List.Sorted wordLeP ("" :: sortWords l) := by
    rw [List.sorted_cons]
    exact ⟨fun b _ => wordLeP_empty b, sortWords_sorted l⟩
  exact List.eq_of_perm_of_sorted h1 (sortWords_sorted _) h2

/-! ## The write-clear-read pipeline -/

theorem parse_render (m : WordsMap)
    (hwords : ∀ w ∈ joinValues m, kLineBreakChar ∉ w.data) :
    (splitChar kLineBreakChar (renderAdded m)).map String.mk
      = joinValues m ++ [""] := by
  unfold renderAdded
  rw [show ((joinValues m).map (fun w => w.data ++ [kLineBreakChar]))
      = (((joinValues m).map String.data).map
          (fun w => w ++ [kLineBreakChar])) from by rw [List.map_map]; rfl]
  rw [splitChar_flatten kLineBreakChar _ (by
    intro w hw
    obtain ⟨x, hx, hxeq⟩ := List.mem_map.mp hw
    rw [← hxeq]
    exact hwords x hx)]
  rw [List.map_append, List.map_map]
  congr 1
  exact (List.map_congr_left (fun x _ => mk_data x)).trans (List.map_id _)

theorem renderAdded_nil (m : WordsMap) :
    renderAdded m = [] ↔ joinValues m = [] := by
  unfold renderAdded
  rcases h : joinValues m with _ | ⟨w, rest⟩
  · simp
  · simp

theorem filter_uniqueAdjacent_cons_empty (p : String → Bool) (hp : p "" = false)
    (xs : List String) :
    (uniqueAdjacent ("" :: xs)).filter p = (uniqueAdjacent xs).filter p := by
  show (("" : String) :: uniqAux "" xs).filter p = (uniqueAdjacent xs).filter p
  rw [List.filter_cons]
  simp only [hp, Bool.false_eq_true, if_false]
  cases xs with
  | nil => rfl
  | cons x r =>
    by_cases hx : ("" : String) = x
    · rw [show uniqAux ("" : String) (x :: r) = uniqAux "" r from by
        simp [uniqAux, hx]]
      rw [← hx]
      show (uniqAux "" r).filter p = (("" : String) :: uniqAux "" r).filter p
      rw [List.filter_cons]
      simp only [hp, Bool.false_eq_true, if_false]
    · rw [show uniqAux ("" : String) (x :: r) = x :: uniqAux x r from by
        simp [uniqAux, hx]]
      rfl

theorem readWords_render (env : Env) (m : WordsMap)
    (hwords : ∀ w ∈ joinValues m, kLineBreakChar ∉ w.data) :
    readWords env (renderAdded m) = canonicalKept env (joinValues m) := by
  unfold readWords canonicalKept
  rw [parse_render m hwords, sortWords_append_empty,
    filter_uniqueAdjacent_cons_empty _ rfl]

theorem readFile_some (env : Env) (st : ServiceState) (data : List Char) :
    readFile env st ⟨some data⟩
      = if data.isEmpty then (st, ⟨some data⟩)
        else ({ st with addedWords := readAdded env data },
          writeToFile env { st with addedWords := readAdded env data }
            ⟨some data⟩) := rfl

theorem foldl_insertNew_eq_mapSet (env : Env) (runs : List (List String)) :
    ∀ acc : WordsMap,
      (runs.map (fun r => env.wordScript (r.headD ""))).Nodup →
      (∀ r ∈ runs, env.wordScript (r.headD "") ∉ acc.map Prod.fst) →
      runs.foldl (fun m run => mapInsertNew m (env.wordScript (run.headD "")) run) acc
        = runs.foldl (fun m run => mapSet m (env.wordScript (run.headD "")) run) acc := by
  induction runs with
  | nil => intro acc _ _; rfl
  | cons r rest ih =>
    intro acc hnd hfresh
    simp only [List.foldl_cons]
    rw [mapInsertNew_eq_mapSet acc _ r (hfresh r (by simp))]
    rw [List.map_cons, List.nodup_cons] at hnd
    refine ih _ hnd.2 ?_
    intro r2 hr2 hmem
    obtain ⟨w2, hw2⟩ := List.mem_map.mp hmem
    rcases mapSet_keys_mem acc (env.wordScript (r.headD "")) r w2 hw2.1 with h1 | h1
    · have h3 : env.wordScript (r2.headD "") = env.wordScript (r.headD "") :=
        hw2.2.symm.trans h1
      exact hnd.1 (h3 ▸ List.mem_map_of_mem _ hr2)
    · refine hfresh r2 (by simp [hr2]) ?_
      rw [← hw2.2]
      exact h1

/-! ## C3 -/

/-- C3 counterexample: a stored word containing the line terminator is
split into two words by the write-clear-read cycle, so the reloaded
content differs from the canonicalisation of the original content. -/
theorem roundTrip_c3_cex :
    (roundTrip envB ⟨[], [], [(0, ["a\nb"])]⟩ ⟨none⟩).1.addedWords
        = [(0, ["a", "b"])]
    ∧ specCanonical envB (joinValues [((0 : Script), ["a\nb"])]) = [(0, ["a\nb"])]
    ∧ ¬ ((roundTrip envB ⟨[], [], [(0, ["a\nb"])]⟩ ⟨none⟩).1.addedWords
        = specCanonical envB (joinValues [((0 : Script), ["a\nb"])])) := by
  have h1 : (roundTrip envB ⟨[], [], [(0, ["a\nb"])]⟩ ⟨none⟩).1.addedWords
      = [(0, ["a", "b"])] := by decide
  have h2 : specCanonical envB (joinValues [((0 : Script), ["a\nb"])])
      = [(0, ["a\nb"])] := by decide
  refine ⟨h1, h2, ?_⟩
  intro h
  rw [h1, h2] at h
  exact absurd h (by decide)

/-- C3 amended: for every content of added whose words do not contain
the platform line terminator and whose canonicalised survivor runs have
pairwise distinct scripts, writing to disk, clearing added and reading
the file back yields an added equal to the canonicalisation of the
original content: all words sorted, adjacent duplicates dropped,
empties and skippable words dropped, the first MAX_ADDED survivors
kept, and the survivors re-bucketed into added[scriptOf(run[0])] per
contiguous same-script run. -/
theorem roundTrip_c3 (env : Env) (st : ServiceState) (world : World)
    (hwr : env.canWrite = true)
    (hwords : ∀ w ∈ joinValues st.addedWords, kLineBreakChar ∉ w.data)
    (hruns : ((canonicalRuns env (joinValues st.addedWords)).map
        (fun r => env.wordScript (r.headD ""))).Nodup) :
    (roundTrip env st world).1.addedWords
      = specCanonical env (joinValues st.addedWords) := by
  have hfile : writeToFile env st world = ⟨some (renderAdded st.addedWords)⟩ := by
    unfold writeToFile
    simp [hwr]
  have hstep : roundTrip env st world
      = readFile env { st with addedWords := [] }
          ⟨some (renderAdded st.addedWords)⟩ := by
    unfold roundTrip
    rw [hfile]
  rw [hstep, readFile_some]
  by_cases hemp : joinValues st.addedWords = []
  · rw [if_pos (by rw [(renderAdded_nil _).mpr hemp]; rfl)]
    show ([] : WordsMap) = specCanonical env (joinValues st.addedWords)
    rw [hemp]
    unfold specCanonical canonicalRuns canonicalKept sortWords
    simp [groupRuns, uniqueAdjacent]
  · rw [if_neg (by
      intro hcond
      exact hemp ((renderAdded_nil _).mp (List.isEmpty_iff.mp hcond)))]
    show readAdded env (renderAdded st.addedWords)
      = specCanonical env (joinValues st.addedWords)
    unfold readAdded specCanonical
    rw [readWords_render env st.addedWords hwords]
    exact foldl_insertNew_eq_mapSet env
      (canonicalRuns env (joinValues st.addedWords)) [] hruns
      (by intro r hr hmem; simp at hmem)

/-- Witness for C3 amended at a concrete input: one stored word. -/
theorem roundTrip_c3_witness :
    (roundTrip envB ⟨[], [], [(0, ["a"])]⟩ ⟨none⟩).1.addedWords
      = specCanonical envB (joinValues [((0 : Script), ["a"])]) :=
  roundTrip_c3 envB ⟨[], [], [(0, ["a"])]⟩ ⟨none⟩ rfl (by decide) (by decide)
